import Mathlib

/-!
# intelliasTrains: the `FindTrains` pipeline

A shallow embedding of `main.go`: the `Train` record, the five error
sentinels, `Train.UnmarshalJSON`, `Trains.sortByCriteria` and `FindTrains`,
together with the parts of the Go runtime and standard library they rely on
(`strconv.Atoi`, `sort.SliceStable`, `time.Parse` with the layout `15:04:05`,
`time.Date`, `time.Time.Before` and the clock readers, `float32` comparison,
slice capacity growth under `append`, slice expressions).

Conventions.
* Go `int` is the 64-bit signed integer; values are `Int`, and `Atoi` carries
  the range check explicitly.
* A `float32` is its IEEE 754 binary32 bit pattern; `<` is IEEE comparison.
* A `time.Time` without monotonic clock reading is the pair seconds since
  January 1, year 1 (UTC) and nanoseconds.
* A slice is its visible elements together with its capacity.
* The outcome of a call is: the process exits (`log.Fatal`), a run-time panic,
  or a normal return of the pair `(Trains, error)`.
-/

namespace IntelliasTrains

/-! ## `float32` -/

/-- IEEE 754 binary32 value, given by its bit pattern (read modulo `2^32`). -/
structure Float32 where
  bits : Nat
  deriving DecidableEq, Repr

namespace Float32

/-- Sign bit (bit 31). -/
def sign (x : Float32) : Nat := x.bits / 2 ^ 31 % 2

/-- Biased exponent (bits 23..30). -/
def expo (x : Float32) : Nat := x.bits / 2 ^ 23 % 256

/-- Fraction field (bits 0..22). -/
def frac (x : Float32) : Nat := x.bits % 2 ^ 23

/-- Not-a-number: exponent all ones and a non-zero fraction. -/
def isNaN (x : Float32) : Bool := x.expo == 255 && x.frac != 0

/-- Sign-magnitude reading of the bit pattern.  On values that are not NaN this
integer is ordered exactly as the real numbers (and infinities) denoted, and
`-0` and `+0` both read as `0`. -/
def key (x : Float32) : Int :=
  if x.sign = 1 then -((x.bits % 2 ^ 31 : Nat) : Int) else ((x.bits % 2 ^ 31 : Nat) : Int)

/-- Go `x < y` on `float32`: false as soon as one side is NaN. -/
def lt (x y : Float32) : Bool := !x.isNaN && !y.isNaN && decide (x.key < y.key)

/-- Go `x <= y` on `float32`. -/
def le (x y : Float32) : Bool := !x.isNaN && !y.isNaN && decide (x.key ≤ y.key)

/-- Go `x == y` on `float32`. -/
def eq (x y : Float32) : Bool := !x.isNaN && !y.isNaN && decide (x.key = y.key)

end Float32

/-! ## `time.Time` -/

/-- A `time.Time` carrying no monotonic clock reading: seconds elapsed since
January 1, year 1 00:00:00 UTC and the nanosecond offset within that second. -/
structure Time where
  sec : Int
  nsec : Nat
  deriving DecidableEq, Repr

namespace Time

/-- Go `t.Before(u)` for times without monotonic reading:
`ts < us || ts == us && t.nsec() < u.nsec()`. -/
def Before (t u : Time) : Bool :=
  decide (t.sec < u.sec) || (decide (t.sec = u.sec) && decide (t.nsec < u.nsec))

/-- Go `t.After(u)` for times without monotonic reading:
`ts > us || ts == us && t.nsec() > u.nsec()`. -/
def After (t u : Time) : Bool :=
  decide (t.sec > u.sec) || (decide (t.sec = u.sec) && decide (t.nsec > u.nsec))

/-- Go `t.Equal(u)` for times without monotonic reading. -/
def Equal (t u : Time) : Bool := decide (t.sec = u.sec) && decide (t.nsec = u.nsec)

end Time

/-! ## Data model -/

/-- Go `type Train struct`. -/
structure Train where
  TrainID : Int
  DepartureStationID : Int
  ArrivalStationID : Int
  Price : Float32
  ArrivalTime : Time
  DepartureTime : Time
  deriving DecidableEq, Repr

/-- Go `type Trains []Train`, as the sequence of visible elements. -/
abbrev Trains := List Train

/-- Zero value of `Train` (what unused cells of a backing array hold). -/
def Train.zero : Train := ⟨0, 0, 0, ⟨0⟩, ⟨0, 0⟩, ⟨0, 0⟩⟩

/-- The five error sentinels declared in the `var ( ... )` block. -/
inductive FindError where
  | unsupportedCriteria
  | emptyDepartureStation
  | emptyArrivalStation
  | badArrivalStationInput
  | badDepartureStationInput
  deriving DecidableEq, Repr

/-! ## `strconv.Atoi` -/

/-- Value of a decimal digit byte, `none` for every other character. -/
def digitVal (c : Char) : Option Nat :=
  if 48 ≤ c.toNat ∧ c.toNat ≤ 57 then some (c.toNat - 48) else none

/-- Accumulate decimal digits left to right (`n = n*10 + digit`); any
non-digit is a syntax error. -/
def parseDigits : List Char → Nat → Option Nat
  | [], n => some n
  | c :: cs, n =>
    match digitVal c with
    | none => none
    | some d => parseDigits cs (n * 10 + d)

/-- Go `strconv.Atoi` with 64-bit `int`: an optional `+` or `-`, then at
least one decimal digit and nothing else; a value outside
`[-2^63, 2^63 - 1]` is a range error.  `none` stands for `err != nil`. -/
def Atoi (s : String) : Option Int :=
  match s.data with
  | [] => none
  | c :: cs =>
    let neg : Bool := c = '-'
    let ds : List Char := if c = '-' ∨ c = '+' then cs else c :: cs
    if ds = [] then none
    else
      match parseDigits ds 0 with
      | none => none
      | some n =>
        let v : Int := if neg then -(n : Int) else (n : Int)
        if -(2 ^ 63 : Int) ≤ v ∧ v ≤ 2 ^ 63 - 1 then some v else none

/-! ## `sort.SliceStable` -/

/-- Inner loop of Go's `insertionSort`: the new element `x` starts right after
the sorted run and is swapped leftwards while `less x predecessor`.  The run
is held reversed (its last element first). -/
def insertFromRight {α : Type} (less : α → α → Bool) (x : α) : List α → List α
  | [] => [x]
  | y :: r => if less x y then y :: insertFromRight less x r else x :: y :: r

/-- Outer loop of Go's `insertionSort`: `done` is the sorted run (reversed),
the second argument the elements still to insert, taken left to right. -/
def insertionLoop {α : Type} (less : α → α → Bool) : List α → List α → List α
  | done, [] => done.reverse
  | done, x :: xs => insertionLoop less (insertFromRight less x done) xs

/-- Go `insertionSort(data, a, b)` on the run `data[a:b]`, given as a list. -/
def insertionSort {α : Type} (less : α → α → Bool) (data : List α) : List α :=
  insertionLoop less [] data

/-- Go `data.Less(i, j)` on the current content; the indices the algorithm
forms are always inside the run. -/
def lessAt {α : Type} (less : α → α → Bool) (data : List α) (i j : Nat) : Bool :=
  match data[i]?, data[j]? with
  | some x, some y => less x y
  | _, _ => false

/-- The binary search loop of `symMerge`,
`for i < j { h := int(uint(i+j) >> 1); if P(h) { i = h + 1 } else { j = h } }`,
returning `i` at exit.  The first argument bounds the number of rounds; each
round shrinks `j - i`, so `j - i` rounds are enough (`searchLoop_fuel`). -/
def searchLoop (P : Nat → Bool) : Nat → Nat → Nat → Nat
  | 0, i, _ => i
  | fuel + 1, i, j =>
    if i < j then
      if P ((i + j) / 2) then searchLoop P fuel ((i + j) / 2 + 1) j
      else searchLoop P fuel i ((i + j) / 2)
    else i

/-- Go `rotate(data, a, m, b)`: the consecutive blocks `u = data[a:m]` and
`v = data[m:b]` change places, `x u v y` becomes `x v u y`. -/
def rotate {α : Type} (data : List α) (a m b : Nat) : List α :=
  data.take a ++ ((data.take b).drop m ++ ((data.take m).drop a ++ data.drop b))

/-- The cut of Go `symMerge(data, a, m, b)`: with `mid` the middle of the
segment and `n = mid + m`, the binary search
`for start < r { c := int(uint(start+r) >> 1); if !data.Less(p-c, c) { start = c + 1 } else { r = c } }`
run from `start = n - b, r = mid` when `m > mid` and from `start = a, r = m`
otherwise, with `p = n - 1`.  Indices are counted from `a`. -/
def symMergeStart {α : Type} (less : α → α → Bool) (data : List α) (m : Nat) : Nat :=
  let b := data.length
  let mid := b / 2
  let n := mid + m
  let start0 := if m > mid then n - b else 0
  let r0 := if m > mid then mid else m
  let p := n - 1
  searchLoop (fun c => !lessAt less data (p - c) c) (r0 - start0) start0 r0

/-- Go `symMerge(data, a, m, b)`: merge the runs `data[a:m]` and `data[m:b]`.
The list is the segment `data[a:b]` and `m` is counted from `a`; every index
the library computes is an average or a difference of indices of the segment,
so the shift by `a` changes nothing.  A run of one element is placed by binary
search; otherwise `symMergeStart` finds the cut, the middle blocks are rotated
and both halves are merged recursively.  The first argument bounds the depth
of the recursion; a half is shorter than the segment, so the length of the
segment is enough (`symMerge_fuel`). -/
def symMerge {α : Type} (less : α → α → Bool) : Nat → List α → Nat → List α
  | 0, data, _ => data
  | fuel + 1, data, m =>
    let b := data.length
    if m = 1 then
      let i := searchLoop (fun h => lessAt less data h 0) (b - m) m b
      (data.drop 1).take (i - 1) ++ (data.take 1 ++ (data.drop 1).drop (i - 1))
    else if b - m = 1 then
      let i := searchLoop (fun h => !lessAt less data m h) m 0 m
      data.take i ++ (data.drop m ++ (data.take m).drop i)
    else
      let mid := b / 2
      let n := mid + m
      let start := symMergeStart less data m
      let end1 := n - start
      let data1 := if start < m ∧ m < end1 then rotate data start m end1 else data
      let left := data1.take mid
      let right := data1.drop mid
      (if 0 < start ∧ start < mid then symMerge less fuel left start else left) ++
        (if mid < end1 ∧ end1 < b then symMerge less fuel right (end1 - mid) else right)

/-- First loop of Go `stable(data, n)`: insertion sort of each block of
`blockSize` elements and of the shorter rest.  The list is what lies from `a`
on; the first argument bounds the number of blocks, and the length of the list
is enough (`insertionSortBlocks_fuel`). -/
def insertionSortBlocks {α : Type} (less : α → α → Bool) (blockSize : Nat) :
    Nat → List α → List α
  | 0, data => insertionSort less data
  | fuel + 1, data =>
    if blockSize ≤ data.length then
      insertionSort less (data.take blockSize) ++
        insertionSortBlocks less blockSize fuel (data.drop blockSize)
    else insertionSort less data

/-- Inner loop of the second phase of Go `stable`: `symMerge` of each pair of
neighbouring blocks, and of a last full block with a shorter rest.  The list
is what lies from `a` on; the first argument bounds the number of pairs, and
the length of the list is enough (`mergeBlocks_fuel`). -/
def mergeBlocks {α : Type} (less : α → α → Bool) (blockSize : Nat) : Nat → List α → List α
  | 0, data => data
  | fuel + 1, data =>
    if 2 * blockSize ≤ data.length then
      symMerge less (2 * blockSize) (data.take (2 * blockSize)) blockSize ++
        mergeBlocks less blockSize fuel (data.drop (2 * blockSize))
    else if blockSize < data.length then symMerge less data.length data blockSize
    else data

/-- Outer loop of the second phase of Go `stable`:
`for blockSize < n { ...; blockSize *= 2 }`.  The first argument bounds the
number of passes; the block size doubles, so the length of the list is enough
(`mergePasses_fuel`). -/
def mergePasses {α : Type} (less : α → α → Bool) : Nat → Nat → List α → List α
  | 0, _, data => data
  | fuel + 1, blockSize, data =>
    if blockSize < data.length then
      mergePasses less fuel (2 * blockSize) (mergeBlocks less blockSize data.length data)
    else data

/-- Go `sort.SliceStable(t, less)` with `less` reading the elements compared:
the library's `stable`, insertion sort of blocks of 20 elements followed by
passes of `symMerge` over blocks of doubling size. -/
def SliceStable {α : Type} (less : α → α → Bool) (t : List α) : List α :=
  mergePasses less t.length 20 (insertionSortBlocks less 20 t.length t)

/-- Go `func (t Trains) sortByCriteria(criteria string)`; the slice is sorted in
place, here the sorted sequence is returned.  A criteria matching no `case`
leaves the slice as it is. -/
def sortByCriteria (t : Trains) (criteria : String) : Trains :=
  if criteria = "price" then
    SliceStable (fun a b => Float32.lt a.Price b.Price) t
  else if criteria = "arrival-time" then
    SliceStable (fun a b => Time.Before a.ArrivalTime b.ArrivalTime) t
  else if criteria = "departure-time" then
    SliceStable (fun a b => Time.Before a.DepartureTime b.DepartureTime) t
  else t

/-! ## Slices -/

/-- A Go slice of `Train`: the `len` visible elements and the capacity `cap`
of the backing array counted from the slice start.  The nil slice is
`⟨[], 0⟩`. -/
structure Slice where
  elems : List Train
  cap : Nat
  deriving DecidableEq, Repr

/-- The nil slice (`var filtered Trains`). -/
def Slice.nil : Slice := ⟨[], 0⟩

/-- Capacity chosen by the runtime (`growslice`) when one element is appended
to a full slice of capacity `old`: `1` from empty, doubling below 256
elements, then growth by `(old + 768) / 4`.  The allocator may round the
result up to a size class; for `Train` the capacities 1, 2 and 4 are size
classes already, and rounding up never lowers a capacity. -/
def growCap (old : Nat) : Nat :=
  if old = 0 then 1 else if old < 256 then old + old else old + (old + 768) / 4

/-- Go `append(s, x)`: in place while capacity remains, otherwise into a
fresh backing array of capacity `growCap`. -/
def Slice.append (s : Slice) (x : Train) : Slice :=
  if s.elems.length < s.cap then ⟨s.elems ++ [x], s.cap⟩
  else ⟨s.elems ++ [x], growCap s.cap⟩

/-- Go slice expression `s[:n]`: panics (`none`) when `n > cap(s)`; cells
between `len` and `n` are zero cells of the freshly grown backing array. -/
def Slice.sliceTo (s : Slice) (n : Nat) : Option Slice :=
  if n ≤ s.cap then
    some ⟨s.elems.take n ++ List.replicate (n - s.elems.length) Train.zero, s.cap⟩
  else none

/-! ## `FindTrains` -/

/-- How a call of `FindTrains` ends. -/
inductive Outcome where
  /-- `log.Fatal`: the process exits, nothing is returned. -/
  | fatal
  /-- Run-time panic (slice bounds out of range). -/
  | panic
  /-- Normal return of `(Trains, error)`; a nil slice is `[]`, a nil error
  is `none`. -/
  | returned (trains : Trains) (err : Option FindError)
  deriving DecidableEq, Repr

/-- The `for _, tr := range t` loop of `FindTrains`: append to `filtered` each
record whose arrival and departure station ids both match. -/
def filterLoop (arrStation depStation : Int) (t : Trains) (filtered : Slice) : Slice :=
  t.foldl
    (fun acc tr =>
      if tr.ArrivalStationID = arrStation ∧ tr.DepartureStationID = depStation then acc.append tr
      else acc)
    filtered

/-- Go `func FindTrains(departureStation, arrivalStation, criteria string)
(Trains, error)`.  The first argument is what reading and decoding
`data.json` produced: `none` when `os.Open`, `ioutil.ReadAll` or
`json.Unmarshal` failed (each followed by `log.Fatal`), `some t` for the
decoded collection. -/
def FindTrains (data : Option Trains) (departureStation arrivalStation criteria : String) :
    Outcome :=
  let stationLimit : Int := 1
  match data with
  | none => Outcome.fatal
  | some t =>
    if departureStation = "" then Outcome.returned [] (some FindError.emptyDepartureStation)
    else
      match Atoi departureStation with
      | none => Outcome.returned [] (some FindError.badDepartureStationInput)
      | some depStation =>
        if depStation < stationLimit then
          Outcome.returned [] (some FindError.badDepartureStationInput)
        else if arrivalStation = "" then
          Outcome.returned [] (some FindError.emptyArrivalStation)
        else
          match Atoi arrivalStation with
          | none => Outcome.returned [] (some FindError.badArrivalStationInput)
          | some arrStation =>
            if arrStation < stationLimit then
              Outcome.returned [] (some FindError.badArrivalStationInput)
            else if criteria ≠ "price" ∧ criteria ≠ "arrival-time" ∧ criteria ≠ "departure-time" then
              Outcome.returned [] (some FindError.unsupportedCriteria)
            else
              let filtered := filterLoop arrStation depStation t Slice.nil
              if filtered.elems.length = 0 then Outcome.returned [] none
              else
                let truncated : Option Slice :=
                  if filtered.elems.length > 2 then filtered.sliceTo 3 else some filtered
                match truncated with
                | none => Outcome.panic
                | some filtered =>
                  let sorted : Slice := ⟨sortByCriteria filtered.elems criteria, filtered.cap⟩
                  match sorted.sliceTo 3 with
                  | none => Outcome.panic
                  | some res => Outcome.returned res.elems none

/-! ## `time.Date`, `time.Parse` and the clock readers -/

/-- Go `norm(hi, lo, base)` of package `time`: bring `lo` into `[0, base)`,
carrying into `hi`. -/
def norm (hi lo base : Int) : Int × Int :=
  let p : Int × Int :=
    if lo < 0 then (hi - ((-lo - 1) / base + 1), lo + ((-lo - 1) / base + 1) * base)
    else (hi, lo)
  if p.2 ≥ base then (p.1 + p.2 / base, p.2 - (p.2 / base) * base) else p

/-- Go `isLeap(year)`. -/
def isLeap (year : Int) : Bool :=
  year % 4 == 0 && (year % 100 != 0 || year % 400 == 0)

/-- Go `daysSinceEpoch(year)`: days from the absolute epoch (January 1 of
year -292277022399) to January 1 of `year`, by 400-, 100- and 4-year
cycles. -/
def daysSinceEpoch (year : Int) : Nat :=
  let y := (year + 292277022399).toNat
  let n400 := y / 400
  let y1 := y - 400 * n400
  let n100 := y1 / 100
  let y2 := y1 - 100 * n100
  let n4 := y2 / 4
  let y3 := y2 - 4 * n4
  146097 * n400 + 36524 * n100 + 1461 * n4 + 365 * y3

/-- Go table `daysBefore`: days of a non-leap year before month `m + 1`. -/
def daysBefore (m : Nat) : Nat :=
  [0, 31, 59, 90, 120, 151, 181, 212, 243, 273, 304, 334, 365].getD m 0

/-- Go `time.Date(year, month, day, hour, min, sec, nsec, time.UTC)`, for
years whose absolute second count fits 64 bits.  The result is kept as seconds
since January 1 of year 1, which is the absolute count shifted by
`absoluteToInternal = -9223371966579724800`. -/
def Date (year month day hour min sec nsec : Int) : Time :=
  let ym := norm year (month - 1) 12
  let sn := norm sec nsec 1000000000
  let ms := norm min sn.1 60
  let hm := norm hour ms.1 60
  let dh := norm day hm.1 24
  let year1 := ym.1
  let month1 := ym.2 + 1
  let d : Int :=
    (daysSinceEpoch year1 : Int) + (daysBefore (month1 - 1).toNat : Int)
      + (if isLeap year1 && decide (month1 ≥ 3) then 1 else 0) + (dh.1 - 1)
  ⟨d * 86400 + (dh.2 * 3600 + hm.2 * 60 + ms.2) - 9223371966579724800, sn.2.toNat⟩

/-- Go `getnum(s, fixed)`: read one or two leading decimal digits; with
`fixed` exactly two are required.  Returns the number and the rest. -/
def getnum (s : List Char) (fixed : Bool) : Option (Nat × List Char) :=
  match s with
  | [] => none
  | c0 :: rest =>
    match digitVal c0 with
    | none => none
    | some d0 =>
      match rest with
      | [] => if fixed then none else some (d0, rest)
      | c1 :: rest2 =>
        match digitVal c1 with
        | none => if fixed then none else some (d0, rest)
        | some d1 => some (d0 * 10 + d1, rest2)

/-- Go `commaOrPeriod(b)`. -/
def commaOrPeriod (c : Char) : Bool := c = '.' || c = ','

/-- Fractional second that `time.Parse` accepts right after the seconds
although the layout names none: a comma or period followed by at least one
digit.  All following digits are consumed, the first nine give the
nanoseconds (`parseNanoseconds`).  Returns nanoseconds and the rest of the
value. -/
def parseFraction (value : List Char) : Nat × List Char :=
  match value with
  | c :: d :: rest =>
    if commaOrPeriod c && (digitVal d).isSome then
      let digits := (d :: rest).takeWhile (fun x => (digitVal x).isSome)
      let used := digits.take 9
      ((parseDigits used 0).getD 0 * 10 ^ (9 - used.length),
        (d :: rest).dropWhile (fun x => (digitVal x).isSome))
    else (0, value)
  | _ => (0, value)

/-- Go `time.Parse("15:04:05", value)`, the layout being the one
`UnmarshalJSON` passes: hour by `getnum(value, false)` below 24, `:`, minute
by `getnum(value, true)` below 60, `:`, second by `getnum(value, true)` below
60, an optional fractional second, and nothing after.  The time returned is
`Date(0, January, 1, hour, min, sec, nsec, UTC)`; `none` stands for
`err != nil`. -/
def Time.Parse (value : String) : Option Time :=
  match getnum value.data false with
  | none => none
  | some (hour, v1) =>
    if 24 ≤ hour then none
    else
      match v1 with
      | ':' :: v2 =>
        match getnum v2 true with
        | none => none
        | some (min, v3) =>
          if 60 ≤ min then none
          else
            match v3 with
            | ':' :: v4 =>
              match getnum v4 true with
              | none => none
              | some (sec, v5) =>
                if 60 ≤ sec then none
                else
                  match parseFraction v5 with
                  | (nsec, []) => some (Date 0 1 1 hour min sec nsec)
                  | (_, _ :: _) => none
            | _ => none
      | _ => none

/-- Go `t.abs()` in UTC: seconds since the absolute epoch, as `uint64`. -/
def Time.abs (t : Time) : Nat := ((t.sec + 9223371966579724800) % 2 ^ 64).toNat

/-- Go `t.Hour()`: `int(t.abs() % secondsPerDay) / secondsPerHour`. -/
def Time.Hour (t : Time) : Nat := t.abs % 86400 / 3600

/-- Go `t.Minute()`: `int(t.abs() % secondsPerHour) / secondsPerMinute`. -/
def Time.Minute (t : Time) : Nat := t.abs % 3600 / 60

/-- Go `t.Second()`: `int(t.abs() % secondsPerMinute)`. -/
def Time.Second (t : Time) : Nat := t.abs % 60

/-- Go `t.Nanosecond()`. -/
def Time.Nanosecond (t : Time) : Nat := t.nsec

/-! ## Loading `data.json` -/

/-- The auxiliary struct `tt` of `UnmarshalJSON` once `json.Unmarshal(b, &tt)`
has filled it: the numeric fields go to the train through the embedded
`*TrainDuplicate`, the two times are still strings. -/
structure RawTrain where
  TrainID : Int
  DepartureStationID : Int
  ArrivalStationID : Int
  Price : Float32
  ArrivalTime : String
  DepartureTime : String
  deriving DecidableEq, Repr

/-- Go `func (t *Train) UnmarshalJSON(b []byte) (err error)`.  The argument is
what `json.Unmarshal(b, &tt)` gave: `none` when it returned an error.  Then
`ArrivalTime` and `DepartureTime` are parsed in this order, and the first
error is returned (`none`). -/
def Train.UnmarshalJSON (b : Option RawTrain) : Option Train :=
  match b with
  | none => none
  | some tt =>
    match Time.Parse tt.ArrivalTime with
    | none => none
    | some arrivalTime =>
      match Time.Parse tt.DepartureTime with
      | none => none
      | some departureTime =>
        some ⟨tt.TrainID, tt.DepartureStationID, tt.ArrivalStationID, tt.Price,
          arrivalTime, departureTime⟩

/-- What `FindTrains` finds at the path `data.json`. -/
inductive DataFile where
  /-- `os.Open` fails. -/
  | missing
  /-- `ioutil.ReadAll` fails. -/
  | unreadable
  /-- The top-level `json.Unmarshal(data, &t)` fails before any element is
  decoded: the bytes are not valid JSON, or they hold a JSON value that is
  neither an array nor `null` (an object, a number, a string, a boolean). -/
  | malformed
  /-- The bytes are the JSON value `null`: `json.Unmarshal` returns no error
  and leaves `t` the nil slice. -/
  | null
  /-- A JSON array; each element is given as `json.Unmarshal(b, &tt)` decodes
  it inside `UnmarshalJSON`, `none` when that decoding fails. -/
  | array (elements : List (Option RawTrain))
  deriving DecidableEq, Repr

/-- Decoding of the array elements by `json.Unmarshal(data, &t)`: each element
goes through `UnmarshalJSON`, the first error stops the decoding. -/
def decodeElements : List (Option RawTrain) → Option Trains
  | [] => some []
  | b :: rest =>
    match Train.UnmarshalJSON b with
    | none => none
    | some tr =>
      match decodeElements rest with
      | none => none
      | some trs => some (tr :: trs)

/-- Lines 82 to 100 of `FindTrains`: open, read and decode `data.json`.
`none` is any of the three `log.Fatal` exits; the JSON value `null` decodes to
the nil slice and is no failure. -/
def loadData : DataFile → Option Trains
  | DataFile.missing => none
  | DataFile.unreadable => none
  | DataFile.malformed => none
  | DataFile.null => some []
  | DataFile.array elements => decodeElements elements

/-! ## Specification-side vocabulary -/

/-- A record matches a station pair: its departure id is the requested
departure id and its arrival id is the requested arrival id. -/
def stationMatch (depStation arrStation : Int) (tr : Train) : Bool :=
  decide (tr.DepartureStationID = depStation) && decide (tr.ArrivalStationID = arrStation)

/-- The criteria strings of the three `case`s. -/
def validCriteria (criteria : String) : Prop :=
  criteria = "price" ∨ criteria = "arrival-time" ∨ criteria = "departure-time"

instance (criteria : String) : Decidable (validCriteria criteria) := by
  unfold validCriteria; infer_instance

/-- The seven checks of the Validator contract, in the order the
specification lists them.  Each entry tells whether that check fails, judged
on its own, and the error it reports. -/
def validationChecks (departureStation arrivalStation criteria : String) :
    List (Bool × FindError) :=
  [ (decide (departureStation = ""), FindError.emptyDepartureStation),
    (decide (Atoi departureStation = none), FindError.badDepartureStationInput),
    ((Atoi departureStation).any (fun n => decide (n < 1)), FindError.badDepartureStationInput),
    (decide (arrivalStation = ""), FindError.emptyArrivalStation),
    (decide (Atoi arrivalStation = none), FindError.badArrivalStationInput),
    ((Atoi arrivalStation).any (fun n => decide (n < 1)), FindError.badArrivalStationInput),
    (decide (¬ validCriteria criteria), FindError.unsupportedCriteria) ]

/-- The error of the first failing check in the specification's order, `none`
when every check passes. -/
def firstFailingCheck (departureStation arrivalStation criteria : String) : Option FindError :=
  ((validationChecks departureStation arrivalStation criteria).find? (fun c => c.1)).map
    (fun c => c.2)

/-- Two records tie under the criterion: equal `Price` (Go `==`), equal
`ArrivalTime` or equal `DepartureTime`; under any other criteria string no key
is read and all records tie. -/
def sameKey (criteria : String) (a b : Train) : Bool :=
  if criteria = "price" then Float32.eq a.Price b.Price
  else if criteria = "arrival-time" then Time.Equal a.ArrivalTime b.ArrivalTime
  else if criteria = "departure-time" then Time.Equal a.DepartureTime b.DepartureTime
  else true

/-- Ascending order of two records under the criterion: `a.Price <= b.Price`
for `price`, `a` not after `b` in the time named by the criterion
otherwise. -/
def keyLE (criteria : String) (a b : Train) : Prop :=
  (criteria = "price" → Float32.le a.Price b.Price = true) ∧
  (criteria = "arrival-time" → Time.After a.ArrivalTime b.ArrivalTime = false) ∧
  (criteria = "departure-time" → Time.After a.DepartureTime b.DepartureTime = false)

/-- Capacity invariant of a slice built by appending one element at a time to
the nil slice: the capacity covers the length, and up to two elements the
capacity is exactly the length. -/
def Slice.Tight (s : Slice) : Prop :=
  s.elems.length ≤ s.cap ∧ (s.elems.length ≤ 2 → s.cap = s.elems.length)

/-! ## Example collections -/

/-- Record `A` of the specification's example: departure 1, arrival 2, price
50 (`0x42480000`), arriving 10:00:00 and leaving 08:00:00 on January 1 of
year 0. -/
def trainA : Train := ⟨1, 1, 2, ⟨0x42480000⟩, ⟨-31586400, 0⟩, ⟨-31593600, 0⟩⟩

/-- Record `B`: price 30 (`0x41F00000`), arriving 12:00:00, leaving 09:00:00. -/
def trainB : Train := ⟨2, 1, 2, ⟨0x41F00000⟩, ⟨-31579200, 0⟩, ⟨-31590000, 0⟩⟩

/-- Record `C`: price 40 (`0x42200000`), arriving 10:00:00, leaving 07:30:00. -/
def trainC : Train := ⟨3, 1, 2, ⟨0x42200000⟩, ⟨-31586400, 0⟩, ⟨-31595400, 0⟩⟩

/-- Record `D`: price 10 (`0x41200000`), arriving 09:00:00, leaving 06:00:00. -/
def trainD : Train := ⟨4, 1, 2, ⟨0x41200000⟩, ⟨-31590000, 0⟩, ⟨-31600800, 0⟩⟩

/-- Record `E`, on another station pair (departure 1, arrival 3), price 10. -/
def trainE : Train := ⟨5, 1, 3, ⟨0x41200000⟩, ⟨-31590000, 0⟩, ⟨-31600800, 0⟩⟩

/-- Record `F`, a tie with `A` on price (50) and with `B` on arrival time. -/
def trainF : Train := ⟨6, 1, 2, ⟨0x42480000⟩, ⟨-31579200, 0⟩, ⟨-31593600, 0⟩⟩

/-- A list of 21 records on one station pair: `TrainID` 1 to 18 with price 2
(`0x40000000`), `TrainID` 19 with the price NaN (`0x7FC00000`), `TrainID` 20
and 21 with price 1 (`0x3F800000`).  No file decodes to it, a JSON number
never being NaN; it is a value of type `Trains` all the same. -/
def exampleNaN : Trains :=
  (List.range 18).map
      (fun i => (⟨(i : Int) + 1, 1, 2, ⟨0x40000000⟩, ⟨-31586400, 0⟩, ⟨-31593600, 0⟩⟩ : Train)) ++
    [⟨19, 1, 2, ⟨0x7FC00000⟩, ⟨-31586400, 0⟩, ⟨-31593600, 0⟩⟩,
     ⟨20, 1, 2, ⟨0x3F800000⟩, ⟨-31586400, 0⟩, ⟨-31593600, 0⟩⟩,
     ⟨21, 1, 2, ⟨0x3F800000⟩, ⟨-31586400, 0⟩, ⟨-31593600, 0⟩⟩]

/-- The 21 records of `exampleNaN` with price 3 (`0x40400000`) in place of
the NaN price of `TrainID` 19. -/
def exampleLong : Trains :=
  (List.range 18).map
      (fun i => (⟨(i : Int) + 1, 1, 2, ⟨0x40000000⟩, ⟨-31586400, 0⟩, ⟨-31593600, 0⟩⟩ : Train)) ++
    [⟨19, 1, 2, ⟨0x40400000⟩, ⟨-31586400, 0⟩, ⟨-31593600, 0⟩⟩,
     ⟨20, 1, 2, ⟨0x3F800000⟩, ⟨-31586400, 0⟩, ⟨-31593600, 0⟩⟩,
     ⟨21, 1, 2, ⟨0x3F800000⟩, ⟨-31586400, 0⟩, ⟨-31593600, 0⟩⟩]

/-- The specification's example file: `A, B, C, D` in that order. -/
def exampleABCD : Trains := [trainA, trainB, trainC, trainD]

/-- A file with records of other station pairs in between and ties on price. -/
def exampleTies : Trains := [trainE, trainA, trainF, trainE, trainB, trainD]

/-- Stable merge of two runs: the head of the right run goes first only when
it is `less` than the head of the left run. -/
def stableMerge {α : Type} (less : α → α → Bool) : List α → List α → List α
  | [], v => v
  | u, [] => u
  | x :: u, y :: v =>
    if less y x then y :: stableMerge less (x :: u) v else x :: stableMerge less u (y :: v)
termination_by u v => u.length + v.length

/-- On the elements of `l` the comparison is a strict weak order. -/
def StrictWeak {α : Type} (less : α → α → Bool) (l : List α) : Prop :=
  (∀ x ∈ l, ∀ y ∈ l, less x y = true → less y x = false) ∧
  (∀ x ∈ l, ∀ y ∈ l, ∀ z ∈ l, less x y = false → less y z = false → less x z = false)

/-- Ascending: no element is `less` than one placed before it. -/
def Ascending {α : Type} (less : α → α → Bool) (l : List α) : Prop :=
  l.Pairwise (fun a b => less b a = false)

/-- Every block of `blockSize` consecutive elements is ascending. -/
def BlocksAscending {α : Type} (less : α → α → Bool) (blockSize : Nat) (data : List α) : Prop :=
  ∀ k, Ascending less ((data.drop (k * blockSize)).take blockSize)

/-- The two characters of a zero-padded two-digit field. -/
def twoDigits (n : Nat) : List Char := [Nat.digitChar (n / 10), Nat.digitChar (n % 10)]

/-- The well-formed time of day `"HH:MM:SS"`, zero-padded. -/
def clockString (hh mm ss : Nat) : String :=
  ⟨twoDigits hh ++ ':' :: (twoDigits mm ++ ':' :: twoDigits ss)⟩

/-- The string holds a character that no integer literal has at that place: a
character other than a decimal digit after the first position, or a first
character that is neither a decimal digit nor a sign.  Blanks before or after
the digits are such characters. -/
def hasStrayChar (s : String) : Bool :=
  s.data.tail.any (fun c => (digitVal c).isNone) ||
    (match s.data with
     | [] => false
     | c :: _ => (digitVal c).isNone && c != '+' && c != '-')

/-- The string is a time of day in the form the specification names:
`"HH:MM:SS"`, zero-padded, 24-hour, `HH` up to 23, `MM` and `SS` up to 59. -/
def isClockForm (s : String) : Prop :=
  ∃ hh mm ss, hh ≤ 23 ∧ mm ≤ 59 ∧ ss ≤ 59 ∧ s = clockString hh mm ss

/-- Load failure in the words of the specification: file missing, file
unreadable, malformed JSON (at top level or in an element), or a record with
a time field that is not in `HH:MM:SS` form. -/
def statedLoadFailure (f : DataFile) : Prop :=
  f = DataFile.missing ∨ f = DataFile.unreadable ∨ f = DataFile.malformed ∨
    ∃ elements, f = DataFile.array elements ∧
      ∃ b ∈ elements, b = none ∨
        ∃ tt, b = some tt ∧ (¬ isClockForm tt.ArrivalTime ∨ ¬ isClockForm tt.DepartureTime)

/-- Load failure as the code has it: `os.Open` fails, `ioutil.ReadAll` fails,
the top-level `json.Unmarshal` fails, or an array element does not decode or
has an arrival or departure time that `time.Parse` with the layout
`"15:04:05"` rejects.  This is narrower than `statedLoadFailure`: `time.Parse`
takes some strings that are not in `HH:MM:SS` form. -/
def loadFailure (f : DataFile) : Prop :=
  f = DataFile.missing ∨ f = DataFile.unreadable ∨ f = DataFile.malformed ∨
    ∃ elements, f = DataFile.array elements ∧
      ∃ b ∈ elements, b = none ∨
        ∃ tt, b = some tt ∧
          (Time.Parse tt.ArrivalTime = none ∨ Time.Parse tt.DepartureTime = none)

/-- A file whose second record has the arrival time `"noon"`. -/
def exampleBadFile : DataFile :=
  DataFile.array
    [some ⟨1, 1, 2, ⟨0x42480000⟩, "10:00:00", "08:00:00"⟩,
     some ⟨2, 1, 2, ⟨0x41F00000⟩, "noon", "09:00:00"⟩]

/-- A file whose two records have times that are not in `HH:MM:SS` form and
that `time.Parse` takes all the same: a one-digit hour and a fractional
second. -/
def exampleLenientFile : DataFile :=
  DataFile.array
    [some ⟨1, 1, 2, ⟨0x42480000⟩, "9:05:00", "08:00:00"⟩,
     some ⟨2, 1, 2, ⟨0x41F00000⟩, "12:00:00", "10:00:00.5"⟩]

/-- The specification's example as a file: records `A, B, C, D`. -/
def exampleFile : DataFile :=
  DataFile.array
    [some ⟨1, 1, 2, ⟨0x42480000⟩, "10:00:00", "08:00:00"⟩,
     some ⟨2, 1, 2, ⟨0x41F00000⟩, "12:00:00", "09:00:00"⟩,
     some ⟨3, 1, 2, ⟨0x42200000⟩, "10:00:00", "07:30:00"⟩,
     some ⟨4, 1, 2, ⟨0x41200000⟩, "09:00:00", "06:00:00"⟩]

/-! ## Lemmas: comparisons -/

theorem Float32.lt_asymm (x y : Float32) (h : Float32.lt x y = true) :
    Float32.lt y x = false := by
  simp only [Float32.lt, Bool.and_eq_true, decide_eq_true_eq, Bool.and_eq_false_iff,
    decide_eq_false_iff_not] at h ⊢
  right
  omega

theorem Float32.lt_negTrans (x y z : Float32) (hy : y.isNaN = false)
    (h1 : Float32.lt x y = false) (h2 : Float32.lt y z = false) : Float32.lt x z = false := by
  simp only [Float32.lt, hy, Bool.and_eq_false_iff, decide_eq_false_iff_not, Bool.not_eq_false,
    Bool.not_eq_true, Bool.not_false, Bool.and_true, Bool.true_and, Bool.not_eq_false'] at h1 h2 ⊢
  rcases h1 with h1 | h1
  · left; left; exact h1
  · rcases h2 with h2 | h2
    · left; right; exact h2
    · right; omega

theorem Float32.lt_of_eq (r x y : Float32) (hx : Float32.eq r x = true)
    (hy : Float32.eq r y = true) : Float32.lt x y = false := by
  simp only [Float32.eq, Float32.lt, Bool.and_eq_true, decide_eq_true_eq, Bool.and_eq_false_iff,
    decide_eq_false_iff_not] at hx hy ⊢
  right
  omega

theorem Float32.le_of_not_lt (x y : Float32) (hx : x.isNaN = false) (hy : y.isNaN = false)
    (h : Float32.lt y x = false) : Float32.le x y = true := by
  simp only [Float32.lt, Float32.le, hx, hy, Bool.not_false, Bool.true_and,
    decide_eq_false_iff_not, decide_eq_true_eq] at h ⊢
  omega

theorem Time.Before_asymm (x y : Time) (h : Time.Before x y = true) :
    Time.Before y x = false := by
  simp only [Time.Before, Bool.or_eq_true, Bool.and_eq_true, decide_eq_true_eq,
    Bool.or_eq_false_iff, Bool.and_eq_false_iff, decide_eq_false_iff_not] at h ⊢
  omega

theorem Time.Before_negTrans (x y z : Time) (h1 : Time.Before x y = false)
    (h2 : Time.Before y z = false) : Time.Before x z = false := by
  simp only [Time.Before, Bool.or_eq_false_iff, Bool.and_eq_false_iff,
    decide_eq_false_iff_not] at h1 h2 ⊢
  omega

theorem Time.Before_of_Equal (r x y : Time) (hx : Time.Equal r x = true)
    (hy : Time.Equal r y = true) : Time.Before x y = false := by
  simp only [Time.Equal, Time.Before, Bool.and_eq_true, decide_eq_true_eq, Bool.or_eq_false_iff,
    Bool.and_eq_false_iff, decide_eq_false_iff_not] at hx hy ⊢
  omega

theorem Time.After_eq_Before (x y : Time) : Time.After x y = Time.Before y x := by
  simp only [Time.After, Time.Before, gt_iff_lt, eq_comm]

/-! ## Lemmas: `Atoi` -/

theorem Atoi_ne_empty {s : String} {n : Int} (h : Atoi s = some n) : s ≠ "" := by
  intro hs
  subst hs
  simp [Atoi] at h

/-! ## Lemmas: insertion sort -/

theorem insertFromRight_perm {α : Type} (less : α → α → Bool) (x : α) (r : List α) :
    (insertFromRight less x r).Perm (x :: r) := by
  induction r with
  | nil => simp [insertFromRight]
  | cons y r ih =>
    simp only [insertFromRight]
    split
    · exact (List.Perm.cons y ih).trans (List.Perm.swap x y r)
    · exact List.Perm.refl _

theorem insertionLoop_perm {α : Type} (less : α → α → Bool) (xs done : List α) :
    (insertionLoop less done xs).Perm (done ++ xs) := by
  induction xs generalizing done with
  | nil => simp [insertionLoop]
  | cons x xs ih =>
    simp only [insertionLoop]
    refine (ih (insertFromRight less x done)).trans ?_
    refine ((insertFromRight_perm less x done).append_right xs).trans ?_
    simpa using (@List.perm_middle _ x done xs).symm

theorem insertionSort_perm {α : Type} (less : α → α → Bool) (t : List α) :
    (insertionSort less t).Perm t := by
  simpa [insertionSort] using insertionLoop_perm less t []

/-! ### `symMerge` and `stable` permute -/

theorem searchLoop_bounds (P : Nat → Bool) (fuel i j : Nat) (h : i ≤ j) :
    i ≤ searchLoop P fuel i j ∧ searchLoop P fuel i j ≤ j := by
  induction fuel generalizing i j with
  | zero => exact ⟨le_refl i, h⟩
  | succ fuel ih =>
    simp only [searchLoop]
    by_cases hij : i < j
    · rw [if_pos hij]
      by_cases hP : P ((i + j) / 2) = true
      · rw [if_pos hP]
        have := ih ((i + j) / 2 + 1) j (by omega)
        omega
      · rw [if_neg hP]
        have := ih i ((i + j) / 2) (by omega)
        omega
    · rw [if_neg hij]
      exact ⟨le_refl i, h⟩

theorem take_drop_perm {α : Type} (data : List α) (i m : Nat) (h : i ≤ m) :
    (data.take i ++ (data.drop m ++ (data.take m).drop i)).Perm data := by
  have h1 : data.take i ++ (data.take m).drop i = data.take m := by
    have := List.take_append_drop i (data.take m)
    rwa [List.take_take, Nat.min_eq_left h] at this
  have h2 : (data.take i ++ (data.drop m ++ (data.take m).drop i)).Perm
      (data.take i ++ ((data.take m).drop i ++ data.drop m)) :=
    List.Perm.append_left _ List.perm_append_comm
  refine h2.trans ?_
  rw [← List.append_assoc, h1, List.take_append_drop]

theorem rotate_perm {α : Type} (data : List α) (a m b : Nat) (h1 : a ≤ m) (h2 : m ≤ b) :
    (rotate data a m b).Perm data := by
  have e1 : data.take a ++ (data.take m).drop a = data.take m := by
    have := List.take_append_drop a (data.take m)
    rwa [List.take_take, Nat.min_eq_left h1] at this
  have e2 : data.take m ++ (data.take b).drop m = data.take b := by
    have := List.take_append_drop m (data.take b)
    rwa [List.take_take, Nat.min_eq_left h2] at this
  unfold rotate
  have hp : (data.take a ++ ((data.take b).drop m ++ ((data.take m).drop a ++ data.drop b))).Perm
      (data.take a ++ ((data.take m).drop a ++ ((data.take b).drop m ++ data.drop b))) := by
    refine List.Perm.append_left _ ?_
    rw [← List.append_assoc, ← List.append_assoc]
    exact List.Perm.append_right _ List.perm_append_comm
  refine hp.trans ?_
  rw [← List.append_assoc, e1, ← List.append_assoc, e2, List.take_append_drop]

theorem ite_rotate_perm {α : Type} (data : List α) (c : Prop) [Decidable c] (a m b : Nat)
    (h : c → a ≤ m ∧ m ≤ b) : (if c then rotate data a m b else data).Perm data := by
  split
  · rename_i hc
    exact rotate_perm data a m b (h hc).1 (h hc).2
  · exact List.Perm.refl _

theorem symMerge_perm {α : Type} (less : α → α → Bool) (fuel : Nat) (data : List α) (m : Nat) :
    (symMerge less fuel data m).Perm data := by
  induction fuel generalizing data m with
  | zero => exact List.Perm.refl _
  | succ fuel ih =>
    simp only [symMerge]
    split
    · have := List.take_append_drop (searchLoop (fun h => lessAt less data h 0)
          (data.length - m) m data.length - 1) (data.drop 1)
      refine (List.perm_append_comm_assoc _ _ _).trans ?_
      rw [this, List.take_append_drop]
    · split
      · exact take_drop_perm data _ m (searchLoop_bounds _ _ 0 m (Nat.zero_le m)).2
      · have key : ∀ (c1 c2 : Prop) [Decidable c1] [Decidable c2] (d : List α)
            (mid s e : Nat), d.Perm data →
            ((if c1 then symMerge less fuel (d.take mid) s else d.take mid) ++
              (if c2 then symMerge less fuel (d.drop mid) e else d.drop mid)).Perm data := by
          intro c1 c2 _ _ d mid s e hd
          have h1 : (if c1 then symMerge less fuel (d.take mid) s else d.take mid).Perm
              (d.take mid) := by
            split
            · exact ih _ _
            · exact List.Perm.refl _
          have h2 : (if c2 then symMerge less fuel (d.drop mid) e else d.drop mid).Perm
              (d.drop mid) := by
            split
            · exact ih _ _
            · exact List.Perm.refl _
          have h3 := List.Perm.append h1 h2
          rw [List.take_append_drop] at h3
          exact h3.trans hd
        exact key _ _ _ _ _ _
          (ite_rotate_perm data _ _ _ _ (fun h => ⟨le_of_lt h.1, le_of_lt h.2⟩))

theorem insertionSortBlocks_perm {α : Type} (less : α → α → Bool) (blockSize fuel : Nat)
    (data : List α) : (insertionSortBlocks less blockSize fuel data).Perm data := by
  induction fuel generalizing data with
  | zero => exact insertionSort_perm less data
  | succ fuel ih =>
    simp only [insertionSortBlocks]
    split
    · have h := List.Perm.append (insertionSort_perm less (data.take blockSize))
        (ih (data.drop blockSize))
      rwa [List.take_append_drop] at h
    · exact insertionSort_perm less data

theorem mergeBlocks_perm {α : Type} (less : α → α → Bool) (blockSize fuel : Nat)
    (data : List α) : (mergeBlocks less blockSize fuel data).Perm data := by
  induction fuel generalizing data with
  | zero => exact List.Perm.refl _
  | succ fuel ih =>
    simp only [mergeBlocks]
    split
    · have h := List.Perm.append
        (symMerge_perm less (2 * blockSize) (data.take (2 * blockSize)) blockSize)
        (ih (data.drop (2 * blockSize)))
      rwa [List.take_append_drop] at h
    · split
      · exact symMerge_perm less _ _ _
      · exact List.Perm.refl _

theorem mergePasses_perm {α : Type} (less : α → α → Bool) (fuel blockSize : Nat)
    (data : List α) : (mergePasses less fuel blockSize data).Perm data := by
  induction fuel generalizing blockSize data with
  | zero => exact List.Perm.refl _
  | succ fuel ih =>
    simp only [mergePasses]
    split
    · exact (ih _ _).trans (mergeBlocks_perm less _ _ _)
    · exact List.Perm.refl _

theorem SliceStable_perm {α : Type} (less : α → α → Bool) (t : List α) :
    (SliceStable less t).Perm t :=
  (mergePasses_perm less _ _ _).trans (insertionSortBlocks_perm less _ _ _)

/-- Up to 20 elements `stable` is one insertion sort: there is a single block
and no merge pass. -/
theorem SliceStable_of_length_le {α : Type} (less : α → α → Bool) (t : List α)
    (h : t.length ≤ 20) : SliceStable less t = insertionSort less t := by
  have hb : insertionSortBlocks less 20 t.length t = insertionSort less t := by
    cases hn : t.length with
    | zero => rfl
    | succ n =>
      simp only [insertionSortBlocks]
      by_cases h20 : 20 ≤ t.length
      · have hlen : t.length = 20 := by omega
        rw [if_pos h20, List.take_of_length_le (by omega), List.drop_of_length_le (by omega)]
        have : insertionSortBlocks less 20 n ([] : List α) = [] := by
          cases n <;> rfl
        rw [this, List.append_nil]
      · rw [if_neg h20]
  have hl : (insertionSort less t).length ≤ 20 := by
    rw [(insertionSort_perm less t).length_eq]
    exact h
  unfold SliceStable
  rw [hb]
  cases hn : t.length with
  | zero => rfl
  | succ n =>
    simp only [mergePasses]
    rw [if_neg (by omega)]

theorem sortByCriteria_perm (t : Trains) (criteria : String) :
    (sortByCriteria t criteria).Perm t := by
  unfold sortByCriteria
  split
  · exact SliceStable_perm _ t
  · split
    · exact SliceStable_perm _ t
    · split
      · exact SliceStable_perm _ t
      · exact List.Perm.refl t

theorem sortByCriteria_length (t : Trains) (criteria : String) :
    (sortByCriteria t criteria).length = t.length :=
  (sortByCriteria_perm t criteria).length_eq

/-! ### Order of the result -/

theorem insertFromRight_sorted {α : Type} (less : α → α → Bool) (G : α → Prop)
    (hasym : ∀ x y, G x → G y → less x y = true → less y x = false)
    (hneg : ∀ x y z, G x → G y → G z → less x y = false → less y z = false → less x z = false)
    (x : α) (r : List α) (hx : G x) (hr : ∀ y ∈ r, G y)
    (hs : r.Pairwise (fun y z => less y z = false)) :
    (insertFromRight less x r).Pairwise (fun y z => less y z = false) := by
  induction r with
  | nil => simp [insertFromRight]
  | cons y r ih =>
    have hy : G y := hr y (List.mem_cons_self y r)
    have hr2 : ∀ z ∈ r, G z := fun z hz => hr z (List.mem_cons_of_mem y hz)
    rw [List.pairwise_cons] at hs
    simp only [insertFromRight]
    by_cases hxy : less x y = true
    · rw [if_pos hxy, List.pairwise_cons]
      refine ⟨fun z hz => ?_, ih hr2 hs.2⟩
      have hz2 : z ∈ x :: r := (insertFromRight_perm less x r).mem_iff.mp hz
      rcases List.mem_cons.mp hz2 with rfl | hz3
      · exact hasym _ _ hx hy hxy
      · exact hs.1 z hz3
    · rw [if_neg hxy, List.pairwise_cons]
      have hxy2 : less x y = false := by simpa using hxy
      refine ⟨fun z hz => ?_, List.pairwise_cons.mpr hs⟩
      rcases List.mem_cons.mp hz with rfl | hz3
      · exact hxy2
      · exact hneg x y z hx hy (hr2 z hz3) hxy2 (hs.1 z hz3)

theorem insertionLoop_sorted {α : Type} (less : α → α → Bool) (G : α → Prop)
    (hasym : ∀ x y, G x → G y → less x y = true → less y x = false)
    (hneg : ∀ x y z, G x → G y → G z → less x y = false → less y z = false → less x z = false)
    (xs done : List α) (hxs : ∀ y ∈ xs, G y) (hd : ∀ y ∈ done, G y)
    (hs : done.Pairwise (fun y z => less y z = false)) :
    (insertionLoop less done xs).Pairwise (fun a b => less b a = false) := by
  induction xs generalizing done with
  | nil =>
    simp only [insertionLoop]
    exact List.pairwise_reverse.mpr hs
  | cons x xs ih =>
    simp only [insertionLoop]
    have hx : G x := hxs x (List.mem_cons_self x xs)
    refine ih _ (fun y hy => hxs y (List.mem_cons_of_mem x hy)) (fun y hy => ?_)
      (insertFromRight_sorted less G hasym hneg x done hx hd hs)
    rcases List.mem_cons.mp ((insertFromRight_perm less x done).mem_iff.mp hy) with rfl | h
    · exact hx
    · exact hd y h

/-- On elements among which `less` is asymmetric and negatively transitive
(a strict weak order), the result of `insertionSort` is ascending: no element
is `less` than one placed before it. -/
theorem insertionSort_sorted {α : Type} (less : α → α → Bool) (G : α → Prop)
    (hasym : ∀ x y, G x → G y → less x y = true → less y x = false)
    (hneg : ∀ x y z, G x → G y → G z → less x y = false → less y z = false → less x z = false)
    (t : List α) (ht : ∀ y ∈ t, G y) :
    (insertionSort less t).Pairwise (fun a b => less b a = false) :=
  insertionLoop_sorted less G hasym hneg t [] ht (by simp) List.Pairwise.nil

/-! ### Stability -/

theorem insertFromRight_filter {α : Type} (less : α → α → Bool) (P : α → Bool)
    (hP : ∀ x y, P x = true → P y = true → less x y = false) (x : α) (r : List α) :
    (insertFromRight less x r).filter P = (x :: r).filter P := by
  induction r with
  | nil => simp [insertFromRight]
  | cons y r ih =>
    simp only [insertFromRight]
    by_cases hxy : less x y = true
    · rw [if_pos hxy, List.filter_cons, ih]
      by_cases hy : P y = true
      · have hx : P x = false := by
          by_contra hx
          have := hP x y (by simpa using hx) hy
          rw [this] at hxy
          exact Bool.noConfusion hxy
        simp [List.filter_cons, hy, hx]
      · simp [List.filter_cons, hy]
    · rw [if_neg hxy]

theorem insertionLoop_filter {α : Type} (less : α → α → Bool) (P : α → Bool)
    (hP : ∀ x y, P x = true → P y = true → less x y = false) (xs done : List α) :
    (insertionLoop less done xs).filter P = (done.reverse ++ xs).filter P := by
  induction xs generalizing done with
  | nil => simp [insertionLoop]
  | cons x xs ih =>
    simp only [insertionLoop]
    rw [ih, List.filter_append, List.filter_reverse, insertFromRight_filter less P hP,
      ← List.filter_reverse, ← List.filter_append]
    simp

/-- Stability of `insertionSort`: within any class of elements none of which is
`less` than another, the order of the input is kept. -/
theorem insertionSort_filter {α : Type} (less : α → α → Bool) (P : α → Bool)
    (hP : ∀ x y, P x = true → P y = true → less x y = false) (t : List α) :
    (insertionSort less t).filter P = t.filter P := by
  simpa [insertionSort] using insertionLoop_filter less P hP t []

/-! ### `sortByCriteria` -/

theorem sortByCriteria_sorted (t : Trains) (criteria : String) (hc : validCriteria criteria)
    (hlen : t.length ≤ 20) (hnan : ∀ tr ∈ t, tr.Price.isNaN = false) :
    (sortByCriteria t criteria).Pairwise (keyLE criteria) := by
  have hmem : ∀ tr ∈ sortByCriteria t criteria, tr.Price.isNaN = false := fun tr h =>
    hnan tr ((sortByCriteria_perm t criteria).mem_iff.mp h)
  unfold sortByCriteria at hmem ⊢
  by_cases h1 : criteria = "price"
  · rw [if_pos h1, SliceStable_of_length_le _ _ hlen] at hmem ⊢
    have hs := insertionSort_sorted (fun a b : Train => Float32.lt a.Price b.Price)
      (fun tr => tr.Price.isNaN = false)
      (fun x y _ _ h => Float32.lt_asymm _ _ h)
      (fun x y z _ hy _ h1 h2 => Float32.lt_negTrans _ _ _ hy h1 h2) t hnan
    refine (List.Pairwise.and_mem.mp hs).imp ?_
    rintro a b ⟨ha, hb, hab⟩
    refine ⟨fun _ => Float32.le_of_not_lt _ _ (hmem a ha) (hmem b hb) hab, ?_, ?_⟩
    · intro h2; rw [h1] at h2; exact absurd h2 (by decide)
    · intro h2; rw [h1] at h2; exact absurd h2 (by decide)
  · by_cases h2 : criteria = "arrival-time"
    · rw [if_neg h1, if_pos h2, SliceStable_of_length_le _ _ hlen]
      have hs := insertionSort_sorted (fun a b : Train => Time.Before a.ArrivalTime b.ArrivalTime)
        (fun _ => True)
        (fun x y _ _ h => Time.Before_asymm _ _ h)
        (fun x y z _ _ _ h1 h2 => Time.Before_negTrans _ _ _ h1 h2) t (fun _ _ => trivial)
      refine hs.imp ?_
      intro a b hab
      refine ⟨fun h => absurd h h1, fun _ => ?_, ?_⟩
      · rw [Time.After_eq_Before]; exact hab
      · intro h3; rw [h2] at h3; exact absurd h3 (by decide)
    · have h3 : criteria = "departure-time" := by
        rcases hc with h | h | h
        · exact absurd h h1
        · exact absurd h h2
        · exact h
      rw [if_neg h1, if_neg h2, if_pos h3, SliceStable_of_length_le _ _ hlen]
      have hs := insertionSort_sorted
        (fun a b : Train => Time.Before a.DepartureTime b.DepartureTime)
        (fun _ => True)
        (fun x y _ _ h => Time.Before_asymm _ _ h)
        (fun x y z _ _ _ h1 h2 => Time.Before_negTrans _ _ _ h1 h2) t (fun _ _ => trivial)
      refine hs.imp ?_
      intro a b hab
      refine ⟨fun h => absurd h h1, fun h => absurd h h2, fun _ => ?_⟩
      rw [Time.After_eq_Before]; exact hab

theorem sortByCriteria_filter (t : Trains) (criteria : String) (r : Train)
    (hlen : t.length ≤ 20) :
    (sortByCriteria t criteria).filter (sameKey criteria r) = t.filter (sameKey criteria r) := by
  unfold sortByCriteria sameKey
  by_cases h1 : criteria = "price"
  · simp only [if_pos h1]
    rw [SliceStable_of_length_le _ _ hlen]
    exact insertionSort_filter (fun a b : Train => Float32.lt a.Price b.Price)
      (fun b : Train => Float32.eq r.Price b.Price)
      (fun x y hx hy => Float32.lt_of_eq r.Price x.Price y.Price hx hy) t
  · by_cases h2 : criteria = "arrival-time"
    · simp only [if_neg h1, if_pos h2]
      rw [SliceStable_of_length_le _ _ hlen]
      exact insertionSort_filter (fun a b : Train => Time.Before a.ArrivalTime b.ArrivalTime)
        (fun b : Train => Time.Equal r.ArrivalTime b.ArrivalTime)
        (fun x y hx hy => Time.Before_of_Equal r.ArrivalTime x.ArrivalTime y.ArrivalTime hx hy) t
    · by_cases h3 : criteria = "departure-time"
      · simp only [if_neg h1, if_neg h2, if_pos h3]
        rw [SliceStable_of_length_le _ _ hlen]
        exact insertionSort_filter (fun a b : Train => Time.Before a.DepartureTime b.DepartureTime)
          (fun b : Train => Time.Equal r.DepartureTime b.DepartureTime)
          (fun x y hx hy =>
            Time.Before_of_Equal r.DepartureTime x.DepartureTime y.DepartureTime hx hy) t
      · simp only [if_neg h1, if_neg h2, if_neg h3]

/-! ## Lemmas: slices and the filter loop -/

theorem Slice.nil_tight : Slice.nil.Tight := by
  simp [Slice.Tight, Slice.nil]

theorem Slice.append_tight (s : Slice) (x : Train) (h : s.Tight) : (s.append x).Tight := by
  obtain ⟨h1, h2⟩ := h
  unfold Slice.append
  split
  · refine ⟨by simp; omega, fun h3 => ?_⟩
    simp at h3
    omega
  · simp only [Slice.Tight, List.length_append, List.length_singleton, growCap]
    split
    · omega
    · split <;> omega

theorem Slice.append_elems (s : Slice) (x : Train) : (s.append x).elems = s.elems ++ [x] := by
  unfold Slice.append
  split <;> rfl

theorem filterLoop_elems (arrStation depStation : Int) (t : Trains) (s : Slice) :
    (filterLoop arrStation depStation t s).elems
      = s.elems ++ t.filter (stationMatch depStation arrStation) := by
  induction t generalizing s with
  | nil => simp [filterLoop]
  | cons tr t ih =>
    have ih2 := ih
    unfold filterLoop at ih2 ⊢
    simp only [List.foldl_cons]
    by_cases hm : tr.ArrivalStationID = arrStation ∧ tr.DepartureStationID = depStation
    · rw [if_pos hm, ih2, Slice.append_elems]
      simp [List.filter_cons, stationMatch, hm.1, hm.2]
    · rw [if_neg hm, ih2]
      have : stationMatch depStation arrStation tr = false := by
        simp only [stationMatch, Bool.and_eq_false_iff, decide_eq_false_iff_not]
        by_cases h1 : tr.DepartureStationID = depStation
        · right; intro h2; exact hm ⟨h2, h1⟩
        · left; exact h1
      simp [List.filter_cons, this]

theorem filterLoop_tight (arrStation depStation : Int) (t : Trains) (s : Slice) (h : s.Tight) :
    (filterLoop arrStation depStation t s).Tight := by
  induction t generalizing s with
  | nil => simpa [filterLoop] using h
  | cons tr t ih =>
    have ih2 := ih
    unfold filterLoop at ih2 ⊢
    simp only [List.foldl_cons]
    split
    · exact ih2 _ (Slice.append_tight s tr h)
    · exact ih2 _ h

/-! ## Lemmas: the shape of `FindTrains` on valid input -/

theorem not_validCriteria_iff (criteria : String) :
    (criteria ≠ "price" ∧ criteria ≠ "arrival-time" ∧ criteria ≠ "departure-time")
      ↔ ¬ validCriteria criteria := by
  unfold validCriteria
  tauto

/-- On input that passes every check, `FindTrains` is decided by the matching
records alone: none gives the empty result, one or two make the final
`filtered[:3]` exceed the capacity, three or more give the first three,
sorted. -/
theorem FindTrains_valid (t : Trains) (dep arr crit : String) (d a : Int)
    (hd : Atoi dep = some d) (hd1 : 1 ≤ d) (ha : Atoi arr = some a) (ha1 : 1 ≤ a)
    (hc : validCriteria crit) :
    FindTrains (some t) dep arr crit =
      if t.filter (stationMatch d a) = [] then Outcome.returned [] none
      else if (t.filter (stationMatch d a)).length < 3 then Outcome.panic
      else Outcome.returned (sortByCriteria ((t.filter (stationMatch d a)).take 3) crit) none := by
  have hde := Atoi_ne_empty hd
  have hae := Atoi_ne_empty ha
  have hcn : ¬ (crit ≠ "price" ∧ crit ≠ "arrival-time" ∧ crit ≠ "departure-time") := by
    rw [not_validCriteria_iff]; exact not_not.mpr hc
  have hE : (filterLoop a d t Slice.nil).elems = t.filter (stationMatch d a) := by
    rw [filterLoop_elems]; rfl
  have hT := filterLoop_tight a d t Slice.nil Slice.nil_tight
  unfold FindTrains
  simp only [hd, ha, if_neg hde, if_neg hae, if_neg (not_lt.mpr hd1), if_neg (not_lt.mpr ha1),
    if_neg hcn]
  generalize filterLoop a d t Slice.nil = F at hE hT ⊢
  obtain ⟨elems, cap⟩ := F
  dsimp only at hE
  subst hE
  obtain ⟨h1, h2⟩ := hT
  dsimp only at h1 h2
  by_cases h0 : t.filter (stationMatch d a) = []
  · simp [h0]
  · have hlen : (t.filter (stationMatch d a)).length ≠ 0 := by
      simpa [List.length_eq_zero] using h0
    rw [if_neg h0]
    simp only [if_neg hlen]
    by_cases h3 : (t.filter (stationMatch d a)).length < 3
    · have hcap := h2 (by omega)
      have h4 : ¬ (t.filter (stationMatch d a)).length > 2 := by omega
      simp only [if_pos h3, if_neg h4, Slice.sliceTo, hcap]
      rw [if_neg (by omega)]
    · have h4 : (t.filter (stationMatch d a)).length > 2 := by omega
      have h5 : 3 ≤ cap := by omega
      have h6 : ((t.filter (stationMatch d a)).take 3).length = 3 := by
        rw [List.length_take]; omega
      have h7 : 3 - (t.filter (stationMatch d a)).length = 0 := by omega
      simp only [if_neg h3, if_pos h4, Slice.sliceTo, if_pos h5, h7, List.replicate_zero,
        List.append_nil, sortByCriteria_length, h6, Nat.sub_self]
      congr 1
      rw [List.take_of_length_le]
      rw [sortByCriteria_length, h6]

/-! ## Lemmas: validation -/

theorem FindTrains_of_check (t : Trains) (dep arr crit : String) (e : FindError)
    (h : firstFailingCheck dep arr crit = some e) :
    FindTrains (some t) dep arr crit = Outcome.returned [] (some e) := by
  unfold firstFailingCheck validationChecks at h
  unfold FindTrains
  by_cases h1 : dep = ""
  · simp [h1, List.find?] at h ⊢
    exact h
  · cases h2 : Atoi dep with
    | none => simp [h1, h2, List.find?] at h ⊢; exact h
    | some d =>
      by_cases h3 : d < 1
      · simp [h1, h2, h3, List.find?] at h ⊢; exact h
      · by_cases h4 : arr = ""
        · simp [h1, h2, h3, h4, List.find?] at h ⊢; exact h
        · cases h5 : Atoi arr with
          | none => simp [h1, h2, h3, h4, h5, List.find?] at h ⊢; exact h
          | some a =>
            by_cases h6 : a < 1
            · simp [h1, h2, h3, h4, h5, h6, List.find?] at h ⊢; exact h
            · by_cases h7 : validCriteria crit
              · simp [h1, h2, h3, h4, h5, h6, h7, List.find?] at h
              · have h8 := (not_validCriteria_iff crit).mpr h7
                simp [h1, h2, h3, h4, h5, h6, h7, List.find?] at h
                simp only [h1, h3, h4, h6, if_false, if_pos h8]
                simp [h]

theorem valid_of_no_check (dep arr crit : String) (h : firstFailingCheck dep arr crit = none) :
    ∃ d a, Atoi dep = some d ∧ 1 ≤ d ∧ Atoi arr = some a ∧ 1 ≤ a ∧ validCriteria crit := by
  unfold firstFailingCheck validationChecks at h
  by_cases h1 : dep = ""
  · simp [h1, List.find?] at h
  · cases h2 : Atoi dep with
    | none => simp [h1, h2, List.find?] at h
    | some d =>
      by_cases h3 : d < 1
      · simp [h1, h2, h3, List.find?] at h
      · by_cases h4 : arr = ""
        · simp [h1, h2, h3, h4, List.find?] at h
        · cases h5 : Atoi arr with
          | none => simp [h1, h2, h3, h4, h5, List.find?] at h
          | some a =>
            by_cases h6 : a < 1
            · simp [h1, h2, h3, h4, h5, h6, List.find?] at h
            · by_cases h7 : validCriteria crit
              · exact ⟨d, a, rfl, not_lt.mp h3, rfl, not_lt.mp h6, h7⟩
              · simp [h1, h2, h3, h4, h5, h6, h7, List.find?] at h

theorem firstFailingCheck_isSome_iff (dep arr crit : String) :
    (∃ e, firstFailingCheck dep arr crit = some e)
      ↔ ∃ c ∈ validationChecks dep arr crit, c.1 = true := by
  unfold firstFailingCheck
  rw [← Option.isSome_iff_exists, Option.isSome_map', List.find?_isSome]

/-- A normal return without error happens only on input passing every check,
and then either nothing matched and the result is empty, or at least three
records matched and the result is the first three of them, sorted. -/
theorem FindTrains_returned_cases (t : Trains) (dep arr crit : String) (ts : Trains)
    (h : FindTrains (some t) dep arr crit = Outcome.returned ts none) :
    ∃ d a, Atoi dep = some d ∧ 1 ≤ d ∧ Atoi arr = some a ∧ 1 ≤ a ∧ validCriteria crit ∧
      ((t.filter (stationMatch d a) = [] ∧ ts = []) ∨
       (3 ≤ (t.filter (stationMatch d a)).length ∧
        ts = sortByCriteria ((t.filter (stationMatch d a)).take 3) crit)) := by
  cases hf : firstFailingCheck dep arr crit with
  | some e =>
    rw [FindTrains_of_check t dep arr crit e hf] at h
    simp at h
  | none =>
    obtain ⟨d, a, hd, hd1, ha, ha1, hc⟩ := valid_of_no_check dep arr crit hf
    refine ⟨d, a, hd, hd1, ha, ha1, hc, ?_⟩
    rw [FindTrains_valid t dep arr crit d a hd hd1 ha ha1 hc] at h
    by_cases h0 : t.filter (stationMatch d a) = []
    · rw [if_pos h0] at h
      left
      refine ⟨h0, ?_⟩
      injection h with h _
      exact h.symm
    · rw [if_neg h0] at h
      by_cases h3 : (t.filter (stationMatch d a)).length < 3
      · rw [if_pos h3] at h
        exact Outcome.noConfusion h
      · rw [if_neg h3] at h
        right
        refine ⟨not_lt.mp h3, ?_⟩
        injection h with h _
        exact h.symm

/-! ## Validation -/

/-- C1: on a loaded collection, `FindTrains` returns the validation error `e`
exactly when `e` is the error of the first failing check in the order
empty departure, departure not an integer, departure id below 1, empty
arrival, arrival not an integer, arrival id below 1, unsupported criteria; and
it returns some validation error exactly when at least one check fails. -/
theorem FindTrains_validation_order (t : Trains) (dep arr crit : String) :
    (∀ e, (∃ ts, FindTrains (some t) dep arr crit = Outcome.returned ts (some e))
        ↔ firstFailingCheck dep arr crit = some e) ∧
    ((∃ ts e, FindTrains (some t) dep arr crit = Outcome.returned ts (some e))
        ↔ ∃ c ∈ validationChecks dep arr crit, c.1 = true) := by
  have key : ∀ e, (∃ ts, FindTrains (some t) dep arr crit = Outcome.returned ts (some e))
      ↔ firstFailingCheck dep arr crit = some e := by
    intro e
    constructor
    · rintro ⟨ts, h⟩
      cases hf : firstFailingCheck dep arr crit with
      | some e2 =>
        rw [FindTrains_of_check t dep arr crit e2 hf] at h
        injection h with _ h2
      | none =>
        obtain ⟨d, a, hd, hd1, ha, ha1, hc⟩ := valid_of_no_check dep arr crit hf
        rw [FindTrains_valid t dep arr crit d a hd hd1 ha ha1 hc] at h
        split_ifs at h <;> simp at h
    · intro h
      exact ⟨[], FindTrains_of_check t dep arr crit e h⟩
  refine ⟨key, ?_⟩
  rw [← firstFailingCheck_isSome_iff]
  constructor
  · rintro ⟨ts, e, h⟩
    exact ⟨e, (key e).mp ⟨ts, h⟩⟩
  · rintro ⟨e, h⟩
    exact ⟨[], e, FindTrains_of_check t dep arr crit e h⟩

/-- C1 at the four inputs the claim lists, on the example file. -/
theorem FindTrains_validation_order_witness :
    (∃ ts, FindTrains (some exampleABCD) "" "" "x"
        = Outcome.returned ts (some FindError.emptyDepartureStation)) ∧
    (∃ ts, FindTrains (some exampleABCD) "abc" "" "x"
        = Outcome.returned ts (some FindError.badDepartureStationInput)) ∧
    (∃ ts, FindTrains (some exampleABCD) "1" "" "x"
        = Outcome.returned ts (some FindError.emptyArrivalStation)) ∧
    (∃ ts, FindTrains (some exampleABCD) "1" "0" "x"
        = Outcome.returned ts (some FindError.badArrivalStationInput)) :=
  ⟨((FindTrains_validation_order exampleABCD "" "" "x").1 _).mpr (by decide),
   ((FindTrains_validation_order exampleABCD "abc" "" "x").1 _).mpr (by decide),
   ((FindTrains_validation_order exampleABCD "1" "" "x").1 _).mpr (by decide),
   ((FindTrains_validation_order exampleABCD "1" "0" "x").1 _).mpr (by decide)⟩

/-- C8: with an empty departure station `FindTrains` fails with
`emptyDepartureStation`, whatever the arrival station, the criteria and the
loaded collection are. -/
theorem FindTrains_empty_departure (t : Trains) (arr crit : String) :
    FindTrains (some t) "" arr crit
      = Outcome.returned [] (some FindError.emptyDepartureStation) := by
  simp [FindTrains]

/-- C8 at `FindTrains("", "2", "price")`. -/
theorem FindTrains_empty_departure_witness :
    FindTrains (some exampleABCD) "" "2" "price"
      = Outcome.returned [] (some FindError.emptyDepartureStation) :=
  FindTrains_empty_departure exampleABCD "2" "price"

/-- C9: a non-empty departure station that is not an integer, or is an integer
below 1, makes `FindTrains` fail with `badDepartureStationInput`, whatever the
arrival station, the criteria and the loaded collection are. -/
theorem FindTrains_bad_departure (t : Trains) (dep arr crit : String) (hne : dep ≠ "")
    (hbad : Atoi dep = none ∨ ∃ n, Atoi dep = some n ∧ n < 1) :
    FindTrains (some t) dep arr crit
      = Outcome.returned [] (some FindError.badDepartureStationInput) := by
  unfold FindTrains
  rcases hbad with h | ⟨n, h, hn⟩
  · simp [hne, h]
  · simp [hne, h, hn]

/-- C9 at `"abc"` (not an integer) and at `"0"` (below 1). -/
theorem FindTrains_bad_departure_witness :
    FindTrains (some exampleABCD) "abc" "2" "price"
        = Outcome.returned [] (some FindError.badDepartureStationInput) ∧
    FindTrains (some exampleABCD) "0" "2" "price"
        = Outcome.returned [] (some FindError.badDepartureStationInput) :=
  ⟨FindTrains_bad_departure exampleABCD "abc" "2" "price" (by decide) (Or.inl (by decide)),
   FindTrains_bad_departure exampleABCD "0" "2" "price" (by decide)
     (Or.inr ⟨0, by decide, by decide⟩)⟩

/-- C10: when the departure station is an integer of at least 1 and the
arrival station is empty, `FindTrains` fails with `emptyArrivalStation`,
whatever the criteria and the loaded collection are. -/
theorem FindTrains_empty_arrival (t : Trains) (dep crit : String) (n : Int)
    (h : Atoi dep = some n) (hn : 1 ≤ n) :
    FindTrains (some t) dep "" crit
      = Outcome.returned [] (some FindError.emptyArrivalStation) := by
  have hne := Atoi_ne_empty h
  unfold FindTrains
  simp [hne, h, not_lt.mpr hn]

/-- C10 at departure `"7"` with an unsupported criteria. -/
theorem FindTrains_empty_arrival_witness :
    Atoi "7" = some 7 ∧
    FindTrains (some exampleABCD) "7" "" "duration"
        = Outcome.returned [] (some FindError.emptyArrivalStation) :=
  ⟨by decide, FindTrains_empty_arrival exampleABCD "7" "duration" 7 (by decide) (by decide)⟩

/-! ## Filter, truncate, sort -/

/-- C2: when at least three records match the valid station pair and the
criteria is valid, `FindTrains` returns without error a permutation of the
first three matching records in file order; the cut to three is made before
sorting, so no later match takes part. -/
theorem FindTrains_truncates_before_sorting (t : Trains) (dep arr crit : String) (d a : Int)
    (hd : Atoi dep = some d) (hd1 : 1 ≤ d) (ha : Atoi arr = some a) (ha1 : 1 ≤ a)
    (hc : validCriteria crit) (h3 : 3 ≤ (t.filter (stationMatch d a)).length) :
    ∃ ts, FindTrains (some t) dep arr crit = Outcome.returned ts none ∧
      ts.Perm ((t.filter (stationMatch d a)).take 3) := by
  refine ⟨sortByCriteria ((t.filter (stationMatch d a)).take 3) crit, ?_,
    sortByCriteria_perm _ crit⟩
  rw [FindTrains_valid t dep arr crit d a hd hd1 ha ha1 hc]
  have h0 : t.filter (stationMatch d a) ≠ [] := by
    intro h
    rw [h] at h3
    simp at h3
  rw [if_neg h0, if_neg (not_lt.mpr h3)]

/-- C2 on the specification's example `A(50), B(30), C(40), D(10)`: the result
is `[B, C, A]`, and `D`, the cheapest, is absent. -/
theorem FindTrains_truncates_before_sorting_witness :
    (∃ ts, FindTrains (some exampleABCD) "1" "2" "price" = Outcome.returned ts none ∧
      ts.Perm ((exampleABCD.filter (stationMatch 1 2)).take 3)) ∧
    FindTrains (some exampleABCD) "1" "2" "price"
      = Outcome.returned [trainB, trainC, trainA] none ∧
    trainD ∉ [trainB, trainC, trainA] :=
  ⟨FindTrains_truncates_before_sorting exampleABCD "1" "2" "price" 1 2 (by decide) (by decide)
      (by decide) (by decide) (by decide) (by decide),
   by decide, by decide⟩

/-- C3, the code at the claim's witness: on a collection whose single record
has departure 1 and arrival 2, `FindTrains("1", "2", "price")` does not return
the record; the final `filtered[:3]` exceeds the capacity 1 and the call
panics. -/
theorem FindTrains_single_match_panics :
    FindTrains (some [trainA]) "1" "2" "price" = Outcome.panic := by
  decide

/-- C4: every record `FindTrains` returns is a record of the collection whose
departure id is the parsed departure station and whose arrival id is the
parsed arrival station. -/
theorem FindTrains_returns_matching (t : Trains) (dep arr crit : String) (ts : Trains)
    (h : FindTrains (some t) dep arr crit = Outcome.returned ts none) :
    ∃ d a, Atoi dep = some d ∧ Atoi arr = some a ∧
      ∀ tr ∈ ts, tr ∈ t ∧ tr.DepartureStationID = d ∧ tr.ArrivalStationID = a := by
  obtain ⟨d, a, hd, _, ha, _, _, hcase⟩ := FindTrains_returned_cases t dep arr crit ts h
  refine ⟨d, a, hd, ha, fun tr htr => ?_⟩
  rcases hcase with ⟨_, rfl⟩ | ⟨_, rfl⟩
  · simp at htr
  · have h1 := (sortByCriteria_perm _ crit).mem_iff.mp htr
    have h2 := List.mem_filter.mp (List.mem_of_mem_take h1)
    simp only [stationMatch, Bool.and_eq_true, decide_eq_true_eq] at h2
    exact ⟨h2.1, h2.2.1, h2.2.2⟩

/-- C4 on a file that mixes station pairs: the three records returned for
`("1", "2")` all have departure 1 and arrival 2. -/
theorem FindTrains_returns_matching_witness :
    FindTrains (some exampleTies) "1" "2" "price"
      = Outcome.returned [trainB, trainA, trainF] none ∧
    ∃ d a, Atoi "1" = some d ∧ Atoi "2" = some a ∧
      ∀ tr ∈ [trainB, trainA, trainF],
        tr ∈ exampleTies ∧ tr.DepartureStationID = d ∧ tr.ArrivalStationID = a :=
  ⟨by decide,
   FindTrains_returns_matching exampleTies "1" "2" "price" [trainB, trainA, trainF] (by decide)⟩

/-- C5: on a decoded collection (a JSON number never decodes to NaN), the list
`FindTrains` returns is ascending in the key the criteria names: each
record is `keyLE` the next one, and every record is `keyLE` every later
one. -/
theorem FindTrains_sorted (t : Trains) (dep arr crit : String) (ts : Trains)
    (hnan : ∀ tr ∈ t, tr.Price.isNaN = false)
    (h : FindTrains (some t) dep arr crit = Outcome.returned ts none) :
    ts.Chain' (keyLE crit) ∧ ts.Pairwise (keyLE crit) := by
  obtain ⟨d, a, _, _, _, _, hc, hcase⟩ := FindTrains_returned_cases t dep arr crit ts h
  have hp : ts.Pairwise (keyLE crit) := by
    rcases hcase with ⟨_, rfl⟩ | ⟨_, rfl⟩
    · exact List.Pairwise.nil
    · refine sortByCriteria_sorted _ crit hc
        ((List.length_take_le 3 _).trans (by decide)) (fun tr htr => ?_)
      exact hnan tr (List.mem_filter.mp (List.mem_of_mem_take htr)).1
  exact ⟨hp.chain', hp⟩

/-- C5 on the example file under `arrival-time`: `A` and `C` (both 10:00:00)
come before `B` (12:00:00). -/
theorem FindTrains_sorted_witness :
    FindTrains (some exampleABCD) "1" "2" "arrival-time"
      = Outcome.returned [trainA, trainC, trainB] none ∧
    [trainA, trainC, trainB].Chain' (keyLE "arrival-time") ∧
    [trainA, trainC, trainB].Pairwise (keyLE "arrival-time") :=
  ⟨by decide,
   FindTrains_sorted exampleABCD "1" "2" "arrival-time" [trainA, trainC, trainB] (by decide)
     (by decide)⟩

/-- C6: sorting is stable.  For every reference record `r`, the returned
records that tie with `r` under the criteria stand in the result exactly as
they stand among the first three matches, and so in the order they have in
the collection. -/
theorem FindTrains_stable (t : Trains) (dep arr crit : String) (ts : Trains)
    (h : FindTrains (some t) dep arr crit = Outcome.returned ts none) :
    ∃ d a, Atoi dep = some d ∧ Atoi arr = some a ∧
      ∀ r : Train,
        ts.filter (sameKey crit r)
          = ((t.filter (stationMatch d a)).take 3).filter (sameKey crit r) ∧
        (ts.filter (sameKey crit r)).Sublist t := by
  obtain ⟨d, a, hd, _, ha, _, _, hcase⟩ := FindTrains_returned_cases t dep arr crit ts h
  refine ⟨d, a, hd, ha, fun r => ?_⟩
  have heq : ts.filter (sameKey crit r)
      = ((t.filter (stationMatch d a)).take 3).filter (sameKey crit r) := by
    rcases hcase with ⟨h0, rfl⟩ | ⟨_, rfl⟩
    · simp [h0]
    · exact sortByCriteria_filter _ crit r ((List.length_take_le 3 _).trans (by decide))
  refine ⟨heq, ?_⟩
  rw [heq]
  exact (List.filter_sublist _).trans ((List.take_sublist 3 _).trans (List.filter_sublist _))

/-- C6 on a file with a tie: `A` and `F` both cost 50 and `A` comes first in
the file; in the result sorted by price `A` still precedes `F`. -/
theorem FindTrains_stable_witness :
    FindTrains (some exampleTies) "1" "2" "price"
      = Outcome.returned [trainB, trainA, trainF] none ∧
    [trainB, trainA, trainF].filter (sameKey "price" trainA) = [trainA, trainF] ∧
    ∃ d a, Atoi "1" = some d ∧ Atoi "2" = some a ∧
      ∀ r : Train,
        [trainB, trainA, trainF].filter (sameKey "price" r)
          = ((exampleTies.filter (stationMatch d a)).take 3).filter (sameKey "price" r) ∧
        ([trainB, trainA, trainF].filter (sameKey "price" r)).Sublist exampleTies :=
  ⟨by decide, by decide,
   FindTrains_stable exampleTies "1" "2" "price" [trainB, trainA, trainF] (by decide)⟩

/-- C7: when no record of the collection has both the requested departure id
and the requested arrival id, `FindTrains` on valid input returns the empty
sequence and no error. -/
theorem FindTrains_no_match (t : Trains) (dep arr crit : String) (d a : Int)
    (hd : Atoi dep = some d) (hd1 : 1 ≤ d) (ha : Atoi arr = some a) (ha1 : 1 ≤ a)
    (hc : validCriteria crit)
    (hno : ∀ tr ∈ t, ¬ (tr.DepartureStationID = d ∧ tr.ArrivalStationID = a)) :
    FindTrains (some t) dep arr crit = Outcome.returned [] none := by
  rw [FindTrains_valid t dep arr crit d a hd hd1 ha ha1 hc]
  have h0 : t.filter (stationMatch d a) = [] := by
    rw [List.filter_eq_nil_iff]
    intro tr htr
    simpa [stationMatch] using hno tr htr
  rw [if_pos h0]

/-- C7 on the example file, which has no train from station 2 to station 1. -/
theorem FindTrains_no_match_witness :
    (∀ tr ∈ exampleABCD, ¬ (tr.DepartureStationID = 2 ∧ tr.ArrivalStationID = 1)) ∧
    FindTrains (some exampleABCD) "2" "1" "departure-time" = Outcome.returned [] none :=
  ⟨by decide,
   FindTrains_no_match exampleABCD "2" "1" "departure-time" 2 1 (by decide) (by decide)
     (by decide) (by decide) (by decide) (by decide)⟩

/-! ## More validation -/

/-- C11: when the departure station is an integer of at least 1, a non-empty
arrival station that is not an integer, or is an integer below 1, makes
`FindTrains` fail with `badArrivalStationInput`, whatever the criteria and the
loaded collection are. -/
theorem FindTrains_bad_arrival (t : Trains) (dep arr crit : String) (d : Int)
    (hd : Atoi dep = some d) (hd1 : 1 ≤ d) (hne : arr ≠ "")
    (hbad : Atoi arr = none ∨ ∃ n, Atoi arr = some n ∧ n < 1) :
    FindTrains (some t) dep arr crit
      = Outcome.returned [] (some FindError.badArrivalStationInput) := by
  have hde := Atoi_ne_empty hd
  unfold FindTrains
  rcases hbad with h | ⟨n, h, hn⟩
  · simp [hde, hd, not_lt.mpr hd1, hne, h]
  · simp [hde, hd, not_lt.mpr hd1, hne, h, hn]

/-- C11 at arrival `"x2"` (not an integer) and `"-3"` (below 1), with an
unsupported criteria and with a supported one. -/
theorem FindTrains_bad_arrival_witness :
    FindTrains (some exampleABCD) "1" "x2" "duration"
        = Outcome.returned [] (some FindError.badArrivalStationInput) ∧
    FindTrains (some exampleABCD) "1" "-3" "price"
        = Outcome.returned [] (some FindError.badArrivalStationInput) :=
  ⟨FindTrains_bad_arrival exampleABCD "1" "x2" "duration" 1 (by decide) (by decide) (by decide)
     (Or.inl (by decide)),
   FindTrains_bad_arrival exampleABCD "1" "-3" "price" 1 (by decide) (by decide) (by decide)
     (Or.inr ⟨-3, by decide, by decide⟩)⟩

/-- C12: when both stations are integers of at least 1, every criteria string
that is not exactly `"price"`, `"arrival-time"` or `"departure-time"` makes
`FindTrains` fail with `unsupportedCriteria`, whatever the collection
holds. -/
theorem FindTrains_unsupported_criteria (t : Trains) (dep arr crit : String) (d a : Int)
    (hd : Atoi dep = some d) (hd1 : 1 ≤ d) (ha : Atoi arr = some a) (ha1 : 1 ≤ a)
    (hc : crit ≠ "price" ∧ crit ≠ "arrival-time" ∧ crit ≠ "departure-time") :
    FindTrains (some t) dep arr crit
      = Outcome.returned [] (some FindError.unsupportedCriteria) := by
  have hde := Atoi_ne_empty hd
  have hae := Atoi_ne_empty ha
  unfold FindTrains
  simp only [hd, ha, if_neg hde, if_neg hae, if_neg (not_lt.mpr hd1), if_neg (not_lt.mpr ha1),
    if_pos hc]

/-- C12 at `"duration"`, at the empty criteria, at `"Price"` (the comparison
is case-sensitive) and on a collection without any match. -/
theorem FindTrains_unsupported_criteria_witness :
    FindTrains (some exampleABCD) "1" "2" "duration"
        = Outcome.returned [] (some FindError.unsupportedCriteria) ∧
    FindTrains (some exampleABCD) "1" "2" ""
        = Outcome.returned [] (some FindError.unsupportedCriteria) ∧
    FindTrains (some exampleABCD) "1" "2" "Price"
        = Outcome.returned [] (some FindError.unsupportedCriteria) ∧
    FindTrains (some []) "1" "2" "duration"
        = Outcome.returned [] (some FindError.unsupportedCriteria) :=
  ⟨FindTrains_unsupported_criteria exampleABCD "1" "2" "duration" 1 2 (by decide) (by decide)
     (by decide) (by decide) (by decide),
   FindTrains_unsupported_criteria exampleABCD "1" "2" "" 1 2 (by decide) (by decide)
     (by decide) (by decide) (by decide),
   FindTrains_unsupported_criteria exampleABCD "1" "2" "Price" 1 2 (by decide) (by decide)
     (by decide) (by decide) (by decide),
   FindTrains_unsupported_criteria [] "1" "2" "duration" 1 2 (by decide) (by decide)
     (by decide) (by decide) (by decide)⟩

/-! ## Time of day -/

theorem digitVal_digitChar (k : Nat) (h : k < 10) : digitVal (Nat.digitChar k) = some k := by
  interval_cases k <;> rfl

theorem getnum_twoDigits (n : Nat) (h : n < 100) (rest : List Char) (fixed : Bool) :
    getnum (twoDigits n ++ rest) fixed = some (n, rest) := by
  have h1 := digitVal_digitChar (n / 10) (by omega)
  have h2 := digitVal_digitChar (n % 10) (Nat.mod_lt _ (by decide))
  have h3 : n / 10 * 10 + n % 10 = n := by omega
  simp only [twoDigits, List.cons_append, List.nil_append, getnum, h1, h2, h3]

theorem norm_of_range (hi lo base : Int) (h0 : 0 ≤ lo) (h1 : lo < base) :
    norm hi lo base = (hi, lo) := by
  simp only [norm, if_neg (not_lt.mpr h0), ge_iff_le, if_neg (not_le.mpr h1)]

theorem daysSinceEpoch_zero : daysSinceEpoch 0 = 106751990353566 := by
  decide

theorem Date_clock (h m s : Nat) (hh : h < 24) (hm : m < 60) (hs : s < 60) :
    Date 0 1 1 h m s 0 = ⟨-31622400 + ((h * 3600 + m * 60 + s : Nat) : Int), 0⟩ := by
  have e1 : norm 0 (1 - 1) 12 = (0, 0) := by decide
  have e2 : norm (s : Int) 0 1000000000 = ((s : Int), 0) := norm_of_range _ _ _ (by omega) (by omega)
  have e3 : norm (m : Int) (s : Int) 60 = ((m : Int), (s : Int)) :=
    norm_of_range _ _ _ (by omega) (by omega)
  have e4 : norm (h : Int) (m : Int) 60 = ((h : Int), (m : Int)) :=
    norm_of_range _ _ _ (by omega) (by omega)
  have e5 : norm 1 (h : Int) 24 = (1, (h : Int)) := norm_of_range _ _ _ (by omega) (by omega)
  have e6 : daysBefore (0 + 1 - 1 : Int).toNat = 0 := by decide
  have e7 : (isLeap 0 && decide ((0 : Int) + 1 ≥ 3)) = false := by decide
  simp only [Date, e1, e2, e3, e4, e5, e6, e7, daysSinceEpoch_zero]
  simp only [Time.mk.injEq, Int.toNat_zero, and_true]
  push_cast
  omega

theorem Parse_clockString (h m s : Nat) (hh : h < 24) (hm : m < 60) (hs : s < 60) :
    Time.Parse (clockString h m s) = some (Date 0 1 1 h m s 0) := by
  have g3 : getnum (twoDigits s) true = some (s, []) := by
    simpa using getnum_twoDigits s (by omega) [] true
  simp only [Time.Parse, clockString, getnum_twoDigits h (by omega), if_neg (not_le.mpr hh),
    getnum_twoDigits m (by omega), if_neg (not_le.mpr hm), g3, if_neg (not_le.mpr hs),
    parseFraction]
  simp

/-- C13: a well-formed `"HH:MM:SS"` (zero-padded, `HH` up to 23, `MM` and `SS`
up to 59) is accepted by `time.Parse` with the layout `"15:04:05"`, and the
time it yields reads back `HH` by `Hour()`, `MM` by `Minute()`, `SS` by
`Second()` and 0 by `Nanosecond()`. -/
theorem Parse_clock_roundtrip (hh mm ss : Nat) (h1 : hh ≤ 23) (h2 : mm ≤ 59) (h3 : ss ≤ 59) :
    ∃ t, Time.Parse (clockString hh mm ss) = some t ∧
      t.Hour = hh ∧ t.Minute = mm ∧ t.Second = ss ∧ t.Nanosecond = 0 := by
  refine ⟨_, Parse_clockString hh mm ss (by omega) (by omega) (by omega), ?_⟩
  rw [Date_clock hh mm ss (by omega) (by omega) (by omega)]
  have habs : Time.abs ⟨-31622400 + ((hh * 3600 + mm * 60 + ss : Nat) : Int), 0⟩
      = 9223371966548102400 + (hh * 3600 + mm * 60 + ss) := by
    simp only [Time.abs]
    omega
  simp only [Time.Hour, Time.Minute, Time.Second, Time.Nanosecond, habs]
  refine ⟨?_, ?_, ?_, trivial⟩ <;> omega

/-- C13 at `"23:59:58"` and at `"00:00:00"`. -/
theorem Parse_clock_roundtrip_witness :
    clockString 23 59 58 = "23:59:58" ∧
    (∃ t, Time.Parse "23:59:58" = some t ∧
      t.Hour = 23 ∧ t.Minute = 59 ∧ t.Second = 58 ∧ t.Nanosecond = 0) ∧
    (∃ t, Time.Parse (clockString 0 0 0) = some t ∧
      t.Hour = 0 ∧ t.Minute = 0 ∧ t.Second = 0 ∧ t.Nanosecond = 0) :=
  ⟨by decide, Parse_clock_roundtrip 23 59 58 (by decide) (by decide) (by decide),
   Parse_clock_roundtrip 0 0 0 (by decide) (by decide) (by decide)⟩

/-- Beyond the zero-padded form, `time.Parse` with the layout `"15:04:05"`
takes a one-digit hour and a fractional second after the seconds; a field
such as `"24:00:00"` or `"10:0:00"` is rejected. -/
theorem Parse_lenient :
    Time.Parse "9:05:00" = Time.Parse "09:05:00" ∧
    Time.Parse "10:00:00.5" = some ⟨-31586400, 500000000⟩ ∧
    Time.Parse "24:00:00" = none ∧ Time.Parse "10:0:00" = none ∧ Time.Parse "" = none := by
  decide

/-! ## Load failure -/

theorem decodeElements_none_of_mem (elements : List (Option RawTrain)) (b : Option RawTrain)
    (hb : b ∈ elements) (hnone : Train.UnmarshalJSON b = none) :
    decodeElements elements = none := by
  induction elements with
  | nil => simp at hb
  | cons e rest ih =>
    rcases List.mem_cons.mp hb with rfl | h
    · simp [decodeElements, hnone]
    · simp only [decodeElements, ih h]
      cases Train.UnmarshalJSON e <;> rfl

theorem mem_of_decodeElements_none (elements : List (Option RawTrain))
    (h : decodeElements elements = none) :
    ∃ b ∈ elements, Train.UnmarshalJSON b = none := by
  induction elements with
  | nil => simp [decodeElements] at h
  | cons e rest ih =>
    cases he : Train.UnmarshalJSON e with
    | none => exact ⟨e, List.mem_cons_self e rest, he⟩
    | some tr =>
      cases hr : decodeElements rest with
      | none =>
        obtain ⟨b, hb, hn⟩ := ih hr
        exact ⟨b, List.mem_cons_of_mem e hb, hn⟩
      | some trs => simp [decodeElements, he, hr] at h

theorem UnmarshalJSON_eq_none_iff (b : Option RawTrain) :
    Train.UnmarshalJSON b = none ↔
      (b = none ∨ ∃ tt, b = some tt ∧
        (Time.Parse tt.ArrivalTime = none ∨ Time.Parse tt.DepartureTime = none)) := by
  cases b with
  | none => simp [Train.UnmarshalJSON]
  | some tt =>
    cases h1 : Time.Parse tt.ArrivalTime with
    | none => simp [Train.UnmarshalJSON, h1]
    | some x =>
      cases h2 : Time.Parse tt.DepartureTime with
      | none => simp [Train.UnmarshalJSON, h1, h2]
      | some y => simp [Train.UnmarshalJSON, h1, h2]

/-- Loading fails exactly on the causes `loadFailure` lists. -/
theorem loadData_eq_none_iff (f : DataFile) : loadData f = none ↔ loadFailure f := by
  unfold loadFailure
  cases f with
  | missing => simp [loadData]
  | unreadable => simp [loadData]
  | malformed => simp [loadData]
  | null => simp [loadData]
  | array elements =>
    simp only [loadData, reduceCtorEq, false_or, DataFile.array.injEq, exists_eq_left']
    constructor
    · intro h
      obtain ⟨b, hb, hn⟩ := mem_of_decodeElements_none elements h
      exact ⟨b, hb, (UnmarshalJSON_eq_none_iff b).mp hn⟩
    · rintro ⟨b, hb, hn⟩
      exact decodeElements_none_of_mem elements b hb ((UnmarshalJSON_eq_none_iff b).mpr hn)

theorem clockString_length (hh mm ss : Nat) : (clockString hh mm ss).length = 8 := by
  simp [clockString, twoDigits, String.length]

theorem not_isClockForm_of_length (s : String) (h : s.length ≠ 8) : ¬ isClockForm s := by
  rintro ⟨hh, mm, ss, _, _, _, rfl⟩
  exact h (clockString_length hh mm ss)

/-- A string in `HH:MM:SS` form is taken by `time.Parse`. -/
theorem Parse_isSome_of_isClockForm (s : String) (h : isClockForm s) :
    Time.Parse s ≠ none := by
  obtain ⟨hh, mm, ss, h1, h2, h3, rfl⟩ := h
  rw [Parse_clockString hh mm ss (by omega) (by omega) (by omega)]
  exact fun hc => Option.noConfusion hc

/-- Every load failure of the code is one in the words of the specification;
the converse fails, since `time.Parse` takes some strings that are not in
`HH:MM:SS` form. -/
theorem statedLoadFailure_of_loadFailure (f : DataFile) (h : loadFailure f) :
    statedLoadFailure f := by
  rcases h with h | h | h | ⟨elements, hf, b, hb, hcause⟩
  · exact Or.inl h
  · exact Or.inr (Or.inl h)
  · exact Or.inr (Or.inr (Or.inl h))
  · refine Or.inr (Or.inr (Or.inr ⟨elements, hf, b, hb, ?_⟩))
    rcases hcause with h0 | ⟨tt, htt, hp⟩
    · exact Or.inl h0
    · refine Or.inr ⟨tt, htt, ?_⟩
      rcases hp with hp | hp
      · exact Or.inl (fun hc => Parse_isSome_of_isClockForm _ hc hp)
      · exact Or.inr (fun hc => Parse_isSome_of_isClockForm _ hc hp)

/-- C14 as stated fails: the file `exampleLenientFile` has the time fields
`"9:05:00"` and `"10:00:00.5"`, which are not in `HH:MM:SS` form, yet it
loads, and `FindTrains("", "2", "price")` returns the validation error
`emptyDepartureStation` instead of ending in `log.Fatal`. -/
theorem load_failure_as_stated_counterexample :
    statedLoadFailure exampleLenientFile ∧
    FindTrains (loadData exampleLenientFile) "" "2" "price"
      = Outcome.returned [] (some FindError.emptyDepartureStation) ∧
    FindTrains (loadData exampleLenientFile) "" "2" "price" ≠ Outcome.fatal := by
  refine ⟨?_, by decide, by decide⟩
  refine Or.inr (Or.inr (Or.inr ⟨_, rfl, _, List.mem_cons_self _ _, Or.inr ⟨_, rfl, Or.inl ?_⟩⟩))
  exact not_isClockForm_of_length _ (by decide)

/-- C14, amended: the file is loaded before any input is looked at.  When
loading fails (no file, unreadable file, malformed JSON, an element that does
not decode, or a time field that `time.Parse` with the layout `"15:04:05"`
rejects), `FindTrains` ends in `log.Fatal` for every departure station,
arrival station and criteria, the invalid ones included, and so returns
nothing, in particular no validation error. -/
theorem FindTrains_load_failure_fatal (f : DataFile) (dep arr crit : String)
    (hfail : loadFailure f) :
    FindTrains (loadData f) dep arr crit = Outcome.fatal ∧
      ∀ ts err, FindTrains (loadData f) dep arr crit ≠ Outcome.returned ts err := by
  have h := (loadData_eq_none_iff f).mpr hfail
  have hf : FindTrains (loadData f) dep arr crit = Outcome.fatal := by
    rw [h]
    rfl
  refine ⟨hf, fun ts err => ?_⟩
  rw [hf]
  exact fun hc => Outcome.noConfusion hc

/-- C14, amended, on a file whose second record has the arrival time `"noon"`,
with an empty departure station, and on a missing file with valid input; a
file that loads, the example file or the JSON value `null`, gets the
validation error instead. -/
theorem FindTrains_load_failure_fatal_witness :
    loadFailure exampleBadFile ∧
    (FindTrains (loadData exampleBadFile) "" "2" "price" = Outcome.fatal ∧
      ∀ ts err, FindTrains (loadData exampleBadFile) "" "2" "price"
        ≠ Outcome.returned ts err) ∧
    (FindTrains (loadData DataFile.missing) "1" "2" "price" = Outcome.fatal ∧
      ∀ ts err, FindTrains (loadData DataFile.missing) "1" "2" "price"
        ≠ Outcome.returned ts err) ∧
    FindTrains (loadData exampleFile) "" "2" "price"
      = Outcome.returned [] (some FindError.emptyDepartureStation) ∧
    FindTrains (loadData DataFile.null) "" "2" "price"
      = Outcome.returned [] (some FindError.emptyDepartureStation) :=
  ⟨(loadData_eq_none_iff exampleBadFile).mp (by decide),
   FindTrains_load_failure_fatal exampleBadFile "" "2" "price"
     ((loadData_eq_none_iff exampleBadFile).mp (by decide)),
   FindTrains_load_failure_fatal DataFile.missing "1" "2" "price" (Or.inl rfl),
   by decide, by decide⟩

/-! ## Shape of the result -/

/-- A return with an error happens exactly on the first failing check, and
carries the nil slice. -/
theorem FindTrains_error_cases (t : Trains) (dep arr crit : String) (ts : Trains)
    (e : FindError) (h : FindTrains (some t) dep arr crit = Outcome.returned ts (some e)) :
    firstFailingCheck dep arr crit = some e ∧ ts = [] := by
  cases hf : firstFailingCheck dep arr crit with
  | some e2 =>
    rw [FindTrains_of_check t dep arr crit e2 hf] at h
    injection h with h1 h2
    exact ⟨h2, h1.symm⟩
  | none =>
    obtain ⟨d, a, hd, hd1, ha, ha1, hc⟩ := valid_of_no_check dep arr crit hf
    rw [FindTrains_valid t dep arr crit d a hd hd1 ha ha1 hc] at h
    split_ifs at h <;> simp at h

theorem FindTrains_error_iff (t : Trains) (dep arr crit : String) (e : FindError) :
    (∃ ts, FindTrains (some t) dep arr crit = Outcome.returned ts (some e))
      ↔ firstFailingCheck dep arr crit = some e :=
  ⟨fun ⟨ts, h⟩ => (FindTrains_error_cases t dep arr crit ts e h).1,
   fun h => ⟨[], FindTrains_of_check t dep arr crit e h⟩⟩

/-- C15: whenever `FindTrains` returns a non-empty result, the result has
exactly three records, there is no error, and at least three records of the
collection match the station pair; so the length of a returned result is 0 or
3 and never above 3. -/
theorem FindTrains_result_length (t : Trains) (dep arr crit : String) (ts : Trains)
    (err : Option FindError)
    (h : FindTrains (some t) dep arr crit = Outcome.returned ts err) :
    (ts ≠ [] → ts.length = 3 ∧ err = none ∧
      ∃ d a, Atoi dep = some d ∧ Atoi arr = some a ∧
        3 ≤ (t.filter (stationMatch d a)).length) ∧
    (ts.length = 0 ∨ ts.length = 3) ∧ ts.length ≤ 3 := by
  cases err with
  | some e =>
    obtain ⟨_, rfl⟩ := FindTrains_error_cases t dep arr crit ts e h
    simp
  | none =>
    obtain ⟨d, a, hd, _, ha, _, _, hcase⟩ := FindTrains_returned_cases t dep arr crit ts h
    rcases hcase with ⟨_, rfl⟩ | ⟨h3, rfl⟩
    · simp
    · have hlen : (sortByCriteria ((t.filter (stationMatch d a)).take 3) crit).length = 3 := by
        rw [sortByCriteria_length, List.length_take]
        omega
      exact ⟨fun _ => ⟨hlen, rfl, d, a, hd, ha, h3⟩, Or.inr hlen, le_of_eq hlen⟩

/-- C15 on the example file (four matches, three returned) and on a file
without a match (nothing returned). -/
theorem FindTrains_result_length_witness :
    FindTrains (some exampleABCD) "1" "2" "price"
      = Outcome.returned [trainB, trainC, trainA] none ∧
    (([trainB, trainC, trainA] ≠ [] → [trainB, trainC, trainA].length = 3 ∧
        (none : Option FindError) = none ∧
        ∃ d a, Atoi "1" = some d ∧ Atoi "2" = some a ∧
          3 ≤ (exampleABCD.filter (stationMatch d a)).length) ∧
      ([trainB, trainC, trainA].length = 0 ∨ [trainB, trainC, trainA].length = 3) ∧
      [trainB, trainC, trainA].length ≤ 3) ∧
    FindTrains (some exampleABCD) "2" "1" "price" = Outcome.returned [] none :=
  ⟨by decide,
   FindTrains_result_length exampleABCD "1" "2" "price" [trainB, trainC, trainA] none
     (by decide),
   by decide⟩

/-- C16: whether `FindTrains` returns a validation error, and which one, does
not depend on the loaded collection. -/
theorem FindTrains_validation_independent (t1 t2 : Trains) (dep arr crit : String)
    (e : FindError) :
    (∃ ts, FindTrains (some t1) dep arr crit = Outcome.returned ts (some e))
      ↔ (∃ ts, FindTrains (some t2) dep arr crit = Outcome.returned ts (some e)) :=
  (FindTrains_error_iff t1 dep arr crit e).trans (FindTrains_error_iff t2 dep arr crit e).symm

/-- C16 between the example file and the empty collection, at an input
with a bad arrival station. -/
theorem FindTrains_validation_independent_witness :
    (∃ ts, FindTrains (some []) "1" "zero" "price"
        = Outcome.returned ts (some FindError.badArrivalStationInput)) :=
  (FindTrains_validation_independent exampleABCD [] "1" "zero" "price"
    FindError.badArrivalStationInput).mp ⟨[], by decide⟩

/-! ## Station strings -/

theorem parseDigits_none_of_mem (ds : List Char) (c : Char) (hc : c ∈ ds)
    (hd : digitVal c = none) (n : Nat) : parseDigits ds n = none := by
  induction ds generalizing n with
  | nil => simp at hc
  | cons x xs ih =>
    cases hx : digitVal x with
    | none => simp [parseDigits, hx]
    | some d =>
      have hcx : c ∈ xs := by
        rcases List.mem_cons.mp hc with rfl | h
        · rw [hd] at hx
          exact Option.noConfusion hx
        · exact h
      simp only [parseDigits, hx]
      exact ih hcx _

theorem Atoi_none_of_stray (s : String) (h : hasStrayChar s = true) :
    Atoi s = none ∧ s ≠ "" := by
  unfold hasStrayChar at h
  unfold Atoi
  cases hs : s.data with
  | nil =>
    rw [hs] at h
    simp at h
  | cons c cs =>
    rw [hs] at h
    have hne : s ≠ "" := by
      intro h0
      rw [h0] at hs
      simp at hs
    refine ⟨?_, hne⟩
    simp only [List.tail_cons, Bool.or_eq_true, List.any_eq_true, Option.isNone_iff_eq_none,
      Bool.and_eq_true, bne_iff_ne, ne_eq] at h
    by_cases hds : (if c = '-' ∨ c = '+' then cs else c :: cs) = []
    · simp only [hds, if_true]
    · have hp : parseDigits (if c = '-' ∨ c = '+' then cs else c :: cs) 0 = none := by
        rcases h with ⟨x, hx, hxd⟩ | ⟨⟨hcd, hc1⟩, hc2⟩
        · refine parseDigits_none_of_mem _ x ?_ hxd 0
          split
          · exact hx
          · exact List.mem_cons_of_mem _ hx
        · have hsign : ¬ (c = '-' ∨ c = '+') := by tauto
          rw [if_neg hsign]
          exact parseDigits_none_of_mem _ c (List.mem_cons_self _ _) hcd 0
      simp only [hds, if_false, hp]

/-- C17: `FindTrains` reads the station strings only through the integers
`strconv.Atoi` gives.  Two departure strings with the same integer and two
arrival strings with the same integer give the same outcome for the same
criteria and collection; a departure string with a blank or another stray
character is rejected with `badDepartureStationInput`, and after a valid
departure an arrival string with such a character is rejected with
`badArrivalStationInput`. -/
theorem FindTrains_station_by_value (t : Trains) (crit : String) :
    (∀ dep1 dep2 arr1 arr2 d a, Atoi dep1 = some d → Atoi dep2 = some d →
      Atoi arr1 = some a → Atoi arr2 = some a →
      FindTrains (some t) dep1 arr1 crit = FindTrains (some t) dep2 arr2 crit) ∧
    (∀ dep arr, hasStrayChar dep = true →
      FindTrains (some t) dep arr crit
        = Outcome.returned [] (some FindError.badDepartureStationInput)) ∧
    (∀ dep arr d, Atoi dep = some d → 1 ≤ d → hasStrayChar arr = true →
      FindTrains (some t) dep arr crit
        = Outcome.returned [] (some FindError.badArrivalStationInput)) := by
  refine ⟨?_, ?_, ?_⟩
  · intro dep1 dep2 arr1 arr2 d a h1 h2 h3 h4
    have e1 := Atoi_ne_empty h1
    have e2 := Atoi_ne_empty h2
    have e3 := Atoi_ne_empty h3
    have e4 := Atoi_ne_empty h4
    unfold FindTrains
    simp only [h1, h2, h3, h4, if_neg e1, if_neg e2, if_neg e3, if_neg e4]
  · intro dep arr h
    obtain ⟨hn, hne⟩ := Atoi_none_of_stray dep h
    unfold FindTrains
    simp only [hn, if_neg hne]
  · intro dep arr d hd hd1 h
    obtain ⟨hn, hne⟩ := Atoi_none_of_stray arr h
    have hde := Atoi_ne_empty hd
    unfold FindTrains
    simp only [hd, hn, if_neg hde, if_neg hne, if_neg (not_lt.mpr hd1)]

/-- C17 at `"1"`, `"01"` and `"+1"` for the departure, `"2"` and `"+002"` for
the arrival, and at strings with a blank or a letter. -/
theorem FindTrains_station_by_value_witness :
    FindTrains (some exampleABCD) "01" "2" "price"
      = FindTrains (some exampleABCD) "+1" "+002" "price" ∧
    FindTrains (some exampleABCD) "1" "2" "price"
      = FindTrains (some exampleABCD) "01" "+002" "price" ∧
    FindTrains (some exampleABCD) "1" "2" "price"
      = Outcome.returned [trainB, trainC, trainA] none ∧
    FindTrains (some exampleABCD) " 1" "2" "price"
      = Outcome.returned [] (some FindError.badDepartureStationInput) ∧
    FindTrains (some exampleABCD) "1a" "2" "price"
      = Outcome.returned [] (some FindError.badDepartureStationInput) ∧
    FindTrains (some exampleABCD) "1" "2 " "price"
      = Outcome.returned [] (some FindError.badArrivalStationInput) :=
  ⟨(FindTrains_station_by_value exampleABCD "price").1 "01" "+1" "2" "+002" 1 2
     (by decide) (by decide) (by decide) (by decide),
   (FindTrains_station_by_value exampleABCD "price").1 "1" "01" "2" "+002" 1 2
     (by decide) (by decide) (by decide) (by decide),
   by decide,
   (FindTrains_station_by_value exampleABCD "price").2.1 " 1" "2" (by decide),
   (FindTrains_station_by_value exampleABCD "price").2.1 "1a" "2" (by decide),
   (FindTrains_station_by_value exampleABCD "price").2.2 "1" "2 " 1 (by decide) (by decide)
     (by decide)⟩

/-! ## `sortByCriteria` as a function on lists -/

theorem insertFromRight_head {α : Type} (less : α → α → Bool) (x : α) (r : List α) :
    (insertFromRight less x r).head? = some x ∨ (insertFromRight less x r).head? = r.head? := by
  cases r with
  | nil => left; rfl
  | cons y r =>
    simp only [insertFromRight]
    split
    · right; rfl
    · left; rfl

theorem insertFromRight_chain {α : Type} (less : α → α → Bool)
    (hasym : ∀ x y, less x y = true → less y x = false) (x : α) (r : List α)
    (hr : r.Chain' (fun y z => less y z = false)) :
    (insertFromRight less x r).Chain' (fun y z => less y z = false) := by
  induction r with
  | nil => simp [insertFromRight]
  | cons y r ih =>
    simp only [insertFromRight]
    by_cases hxy : less x y = true
    · rw [if_pos hxy, List.chain'_cons']
      refine ⟨fun z hz => ?_, ih hr.tail⟩
      rcases insertFromRight_head less x r with h | h
      · rw [h] at hz
        cases hz
        exact hasym _ _ hxy
      · rw [h] at hz
        exact (List.chain'_cons'.mp hr).1 z hz
    · rw [if_neg hxy]
      exact List.Chain'.cons (by simpa using hxy) hr

theorem insertionLoop_chain {α : Type} (less : α → α → Bool)
    (hasym : ∀ x y, less x y = true → less y x = false) (xs done : List α)
    (hd : done.Chain' (fun y z => less y z = false)) :
    (insertionLoop less done xs).Chain' (fun a b => less b a = false) := by
  induction xs generalizing done with
  | nil =>
    simp only [insertionLoop]
    exact List.chain'_reverse.mpr hd
  | cons x xs ih =>
    simp only [insertionLoop]
    exact ih _ (insertFromRight_chain less hasym x done hd)

theorem insertionLoop_of_chain {α : Type} (less : α → α → Bool) (xs done : List α)
    (h : (done.reverse ++ xs).Chain' (fun a b => less b a = false)) :
    insertionLoop less done xs = done.reverse ++ xs := by
  induction xs generalizing done with
  | nil => simp [insertionLoop]
  | cons x xs ih =>
    have hins : insertFromRight less x done = x :: done := by
      cases done with
      | nil => rfl
      | cons y d =>
        have h2 : (d.reverse ++ (y :: x :: xs)).Chain' (fun a b => less b a = false) := by
          simpa using h
        have h3 := (List.chain'_cons.mp h2.right_of_append).1
        simp only [insertFromRight, h3]
        rfl
    simp only [insertionLoop, hins]
    rw [ih (x :: done) (by simpa using h)]
    simp

/-- Sorting again what `insertionSort` returned changes nothing, as soon as
`less` is asymmetric. -/
theorem insertionSort_idem {α : Type} (less : α → α → Bool)
    (hasym : ∀ x y, less x y = true → less y x = false) (t : List α) :
    insertionSort less (insertionSort less t) = insertionSort less t := by
  have hc : (insertionSort less t).Chain' (fun a b => less b a = false) :=
    insertionLoop_chain less hasym t [] List.chain'_nil
  simpa [insertionSort] using
    insertionLoop_of_chain less (insertionSort less t) [] (by simpa using hc)

/-- Up to 20 elements, sorting again what `SliceStable` returned changes
nothing, as soon as `less` is asymmetric. -/
theorem SliceStable_idem_short {α : Type} (less : α → α → Bool)
    (hasym : ∀ x y, less x y = true → less y x = false) (t : List α) (h : t.length ≤ 20) :
    SliceStable less (SliceStable less t) = SliceStable less t := by
  have hl : (SliceStable less t).length ≤ 20 := by
    rw [(SliceStable_perm less t).length_eq]
    exact h
  rw [SliceStable_of_length_le less _ hl, SliceStable_of_length_le less t h]
  exact insertionSort_idem less hasym t

/-! ## `sort.SliceStable` under a strict weak order -/

theorem StrictWeak.mono {α : Type} {less : α → α → Bool} {l l2 : List α}
    (h : StrictWeak less l) (hsub : ∀ x ∈ l2, x ∈ l) : StrictWeak less l2 :=
  ⟨fun x hx y hy => h.1 x (hsub x hx) y (hsub y hy),
   fun x hx y hy z hz => h.2 x (hsub x hx) y (hsub y hy) z (hsub z hz)⟩

theorem StrictWeak.irrefl {α : Type} {less : α → α → Bool} {l : List α}
    (h : StrictWeak less l) (x : α) (hx : x ∈ l) : less x x = false := by
  cases hxx : less x x with
  | false => rfl
  | true =>
    have := h.1 x hx x hx hxx
    rw [hxx] at this
    exact this

theorem stableMerge_nil_left {α : Type} (less : α → α → Bool) (v : List α) :
    stableMerge less [] v = v := by
  rw [stableMerge]

theorem stableMerge_nil_right {α : Type} (less : α → α → Bool) (u : List α) :
    stableMerge less u [] = u := by
  cases u <;> simp [stableMerge]

theorem stableMerge_cons_cons {α : Type} (less : α → α → Bool) (x y : α) (u v : List α) :
    stableMerge less (x :: u) (y :: v) =
      if less y x then y :: stableMerge less (x :: u) v
      else x :: stableMerge less u (y :: v) := by
  rw [stableMerge]

theorem stableMerge_perm {α : Type} (less : α → α → Bool) (u v : List α) :
    (stableMerge less u v).Perm (u ++ v) := by
  induction u generalizing v with
  | nil => simp [stableMerge_nil_left]
  | cons x u ihu =>
    induction v with
    | nil => simp [stableMerge_nil_right]
    | cons y v ihv =>
      rw [stableMerge_cons_cons]
      split
      · refine (List.Perm.cons y ihv).trans ?_
        exact (@List.perm_middle _ y (x :: u) v).symm
      · exact List.Perm.cons x (ihu (y :: v))

theorem stableMerge_eq_append {α : Type} (less : α → α → Bool) (u v : List α)
    (h : ∀ x ∈ u, ∀ y ∈ v, less y x = false) : stableMerge less u v = u ++ v := by
  induction u with
  | nil => simp [stableMerge_nil_left]
  | cons x u ih =>
    cases v with
    | nil => simp [stableMerge_nil_right]
    | cons y v =>
      rw [stableMerge_cons_cons, h x (List.mem_cons_self _ _) y (List.mem_cons_self _ _)]
      simp only [Bool.false_eq_true, if_false, List.cons_append]
      rw [ih (fun a ha b hb => h a (List.mem_cons_of_mem _ ha) b hb)]

theorem stableMerge_ascending {α : Type} (less : α → α → Bool) (u v : List α)
    (hsw : StrictWeak less (u ++ v)) (hu : Ascending less u) (hv : Ascending less v) :
    Ascending less (stableMerge less u v) := by
  induction u generalizing v with
  | nil => simpa [stableMerge_nil_left] using hv
  | cons x u ihu =>
    induction v with
    | nil => simpa [stableMerge_nil_right] using hu
    | cons y v ihv =>
      have hxm : x ∈ x :: u ++ y :: v := by simp
      have hym : y ∈ x :: u ++ y :: v := by simp
      rw [stableMerge_cons_cons]
      unfold Ascending at hu hv ⊢
      rw [List.pairwise_cons] at hu hv
      by_cases hyx : less y x = true
      · rw [if_pos hyx, List.pairwise_cons]
        refine ⟨fun z hz => ?_, ihv (hsw.mono (by intro a ha; simp at ha ⊢; tauto)) hv.2⟩
        have hz2 := (stableMerge_perm less (x :: u) v).mem_iff.mp hz
        have hzm : z ∈ x :: u ++ y :: v := by simp at hz2 ⊢; tauto
        rcases List.mem_append.mp hz2 with hzu | hzv
        · have hxy : less x y = false := hsw.1 y hym x hxm hyx
          rcases List.mem_cons.mp hzu with rfl | hzu2
          · exact hxy
          · exact hsw.2 z hzm x hxm y hym (hu.1 z hzu2) hxy
        · exact hv.1 z hzv
      · have hyx2 : less y x = false := by simpa using hyx
        rw [if_neg hyx, List.pairwise_cons]
        refine ⟨fun z hz => ?_, ihu (y :: v) (hsw.mono (by intro a ha; simp at ha ⊢; tauto)) hu.2
          (List.pairwise_cons.mpr hv)⟩
        have hz2 := (stableMerge_perm less u (y :: v)).mem_iff.mp hz
        have hzm : z ∈ x :: u ++ y :: v := by simp at hz2 ⊢; tauto
        rcases List.mem_append.mp hz2 with hzu | hzv
        · exact hu.1 z hzu
        · rcases List.mem_cons.mp hzv with rfl | hzv2
          · exact hyx2
          · exact hsw.2 z hzm y hym x hxm (hv.1 z hzv2) hyx2

/-- If every element of `v1` is `less` than every element of `u2`, and no
element of `v2` is `less` than one of `u1`, merging splits at the cut. -/
theorem stableMerge_append {α : Type} (less : α → α → Bool) (u1 u2 v1 v2 : List α)
    (h1 : ∀ y ∈ v1, ∀ x ∈ u2, less y x = true)
    (h2 : ∀ x ∈ u1, ∀ y ∈ v2, less y x = false) :
    stableMerge less (u1 ++ u2) (v1 ++ v2)
      = stableMerge less u1 v1 ++ stableMerge less u2 v2 := by
  induction u1 generalizing v1 with
  | nil =>
    induction v1 with
    | nil => simp [stableMerge_nil_left]
    | cons y v1 ih =>
      have ih2 := ih (fun a ha b hb => h1 a (List.mem_cons_of_mem _ ha) b hb)
      simp only [List.nil_append, stableMerge_nil_left, List.cons_append] at ih2 ⊢
      cases u2 with
      | nil => simp [stableMerge_nil_right, stableMerge_nil_left]
      | cons x u2 =>
        rw [stableMerge_cons_cons, if_pos (h1 y (List.mem_cons_self _ _) x (List.mem_cons_self _ _)),
          ih2]
  | cons x u1 ihu =>
    induction v1 with
    | nil =>
      simp only [List.nil_append, stableMerge_nil_right, List.cons_append]
      cases v2 with
      | nil => simp [stableMerge_nil_right]
      | cons y v2 =>
        rw [stableMerge_cons_cons,
          if_neg (by simp [h2 x (List.mem_cons_self _ _) y (List.mem_cons_self _ _)])]
        have := ihu [] (fun a ha => by simp at ha)
          (fun a ha b hb => h2 a (List.mem_cons_of_mem _ ha) b hb)
        simp only [List.nil_append, stableMerge_nil_right] at this
        rw [this]
    | cons y v1 ihv =>
      simp only [List.cons_append]
      rw [stableMerge_cons_cons, stableMerge_cons_cons]
      split
      · have := ihv (fun a ha b hb => h1 a (List.mem_cons_of_mem _ ha) b hb)
        simp only [List.cons_append] at this
        rw [this]
        rfl
      · have := ihu (y :: v1) h1 (fun a ha b hb => h2 a (List.mem_cons_of_mem _ ha) b hb)
        simp only [List.cons_append] at this
        rw [this]
        rfl

/-! ### The binary search -/

theorem searchLoop_inv (P : Nat → Bool) (fuel i j i0 j0 : Nat) (hle : i ≤ j)
    (hfuel : j - i ≤ fuel) (hL : i0 < i → P (i - 1) = true) (hR : j < j0 → P j = false) :
    i ≤ searchLoop P fuel i j ∧ searchLoop P fuel i j ≤ j ∧
      (i0 < searchLoop P fuel i j → P (searchLoop P fuel i j - 1) = true) ∧
      (searchLoop P fuel i j < j0 → P (searchLoop P fuel i j) = false) := by
  induction fuel generalizing i j with
  | zero =>
    have hij : i = j := by omega
    subst hij
    exact ⟨le_refl _, le_refl _, hL, hR⟩
  | succ fuel ih =>
    simp only [searchLoop]
    by_cases hij : i < j
    · rw [if_pos hij]
      by_cases hP : P ((i + j) / 2) = true
      · rw [if_pos hP]
        have := ih ((i + j) / 2 + 1) j (by omega) (by omega)
          (fun _ => by simpa using hP) hR
        exact ⟨by omega, this.2.1, this.2.2⟩
      · rw [if_neg hP]
        have := ih i ((i + j) / 2) (by omega) (by omega) hL
          (fun _ => by simpa using hP)
        exact ⟨this.1, by omega, this.2.2⟩
    · rw [if_neg hij]
      have hij2 : i = j := by omega
      subst hij2
      exact ⟨le_refl _, le_refl _, hL, hR⟩

theorem searchLoop_post (P : Nat → Bool) (fuel i j : Nat) (hle : i ≤ j)
    (hfuel : j - i ≤ fuel) :
    i ≤ searchLoop P fuel i j ∧ searchLoop P fuel i j ≤ j ∧
      (i < searchLoop P fuel i j → P (searchLoop P fuel i j - 1) = true) ∧
      (searchLoop P fuel i j < j → P (searchLoop P fuel i j) = false) :=
  searchLoop_inv P fuel i j i j hle hfuel (fun h => absurd h (lt_irrefl i))
    (fun h => absurd h (lt_irrefl j))

/-! ### Order facts on ascending runs -/

theorem lessAt_eq {α : Type} (less : α → α → Bool) (data : List α) (i j : Nat) (a b : α)
    (hi : data[i]? = some a) (hj : data[j]? = some b) : lessAt less data i j = less a b := by
  simp only [lessAt, hi, hj]

theorem lessAt_true {α : Type} (less : α → α → Bool) (data : List α) (i j : Nat)
    (h : lessAt less data i j = true) :
    ∃ a b, data[i]? = some a ∧ data[j]? = some b ∧ less a b = true := by
  unfold lessAt at h
  cases hi : data[i]? with
  | none => simp [hi] at h
  | some a =>
    cases hj : data[j]? with
    | none => simp [hi, hj] at h
    | some b => exact ⟨a, b, rfl, rfl, by simpa [hi, hj] using h⟩

theorem ascending_index {α : Type} (less : α → α → Bool) (l : List α)
    (hsw : StrictWeak less l) (hl : Ascending less l) (i j : Nat) (a b : α) (hij : i ≤ j)
    (hi : l[i]? = some a) (hj : l[j]? = some b) : less b a = false := by
  rcases Nat.eq_or_lt_of_le hij with rfl | hlt
  · rw [hi] at hj
    cases hj
    exact hsw.irrefl a (List.getElem?_mem hi)
  · obtain ⟨hi1, hi2⟩ := List.getElem?_eq_some.mp hi
    obtain ⟨hj1, hj2⟩ := List.getElem?_eq_some.mp hj
    have := (List.pairwise_iff_getElem.mp hl) i j hi1 hj1 hlt
    rw [hi2, hj2] at this
    exact this

theorem mem_take_index {α : Type} (l : List α) (k : Nat) (x : α) (hx : x ∈ l.take k) :
    ∃ n, n < k ∧ l[n]? = some x := by
  obtain ⟨n, hn⟩ := List.mem_iff_getElem?.mp hx
  rw [List.getElem?_take] at hn
  by_cases hnk : n < k
  · exact ⟨n, hnk, by simpa [hnk] using hn⟩
  · simp [hnk] at hn

theorem mem_drop_index {α : Type} (l : List α) (k : Nat) (x : α) (hx : x ∈ l.drop k) :
    ∃ n, k ≤ n ∧ l[n]? = some x := by
  obtain ⟨n, hn⟩ := List.mem_iff_getElem?.mp hx
  rw [List.getElem?_drop] at hn
  exact ⟨k + n, Nat.le_add_right k n, hn⟩

/-- From `u[k] ≤ v[l]`: every element of `u` up to `k` stays before every
element of `v` from `l` on. -/
theorem cut_left {α : Type} (less : α → α → Bool) (u v : List α)
    (hsw : StrictWeak less (u ++ v)) (hu : Ascending less u) (hv : Ascending less v)
    (k l : Nat) (hk : k < u.length)
    (h : lessAt less (u ++ v) (u.length + l) k = false) :
    ∀ x ∈ u.take (k + 1), ∀ y ∈ v.drop l, less y x = false := by
  intro x hx y hy
  obtain ⟨n, hn, hxn⟩ := mem_take_index u (k + 1) x hx
  obtain ⟨n2, hn2, hyn⟩ := mem_drop_index v l y hy
  have hyv : y ∈ v := List.getElem?_mem hyn
  have hlv : l < v.length := by
    have := (List.getElem?_eq_some.mp hyn).1
    omega
  have hp : u[k]? = some u[k] := List.getElem?_eq_getElem hk
  have hq : v[l]? = some v[l] := List.getElem?_eq_getElem hlv
  have hp2 : (u ++ v)[k]? = some u[k] := by
    rw [List.getElem?_append_left hk]
    exact hp
  have hq2 : (u ++ v)[u.length + l]? = some v[l] := by
    rw [List.getElem?_append_right (Nat.le_add_right _ _), Nat.add_sub_cancel_left]
    exact hq
  rw [lessAt_eq less _ _ _ _ _ hq2 hp2] at h
  have hswu : StrictWeak less u := hsw.mono (fun a ha => List.mem_append_left _ ha)
  have hswv : StrictWeak less v := hsw.mono (fun a ha => List.mem_append_right _ ha)
  have e1 : less u[k] x = false := ascending_index less u hswu hu n k x u[k] (by omega) hxn hp
  have e2 : less y v[l] = false := ascending_index less v hswv hv l n2 v[l] y hn2 hq hyn
  have mx : x ∈ u ++ v := List.mem_append_left _ (List.getElem?_mem hxn)
  have my : y ∈ u ++ v := List.mem_append_right _ hyv
  have mp : u[k] ∈ u ++ v := List.mem_append_left _ (List.getElem?_mem hp)
  have mq : v[l] ∈ u ++ v := List.mem_append_right _ (List.getElem?_mem hq)
  exact hsw.2 y my u[k] mp x mx (hsw.2 y my v[l] mq u[k] mp e2 h) e1

/-- From `v[l] < u[k]`: every element of `v` up to `l` goes before every
element of `u` from `k` on. -/
theorem cut_right {α : Type} (less : α → α → Bool) (u v : List α)
    (hsw : StrictWeak less (u ++ v)) (hu : Ascending less u) (hv : Ascending less v)
    (k l : Nat) (hk : k < u.length)
    (h : lessAt less (u ++ v) (u.length + l) k = true) :
    ∀ y ∈ v.take (l + 1), ∀ x ∈ u.drop k, less y x = true := by
  intro y hy x hx
  obtain ⟨n, hn, hyn⟩ := mem_take_index v (l + 1) y hy
  obtain ⟨n2, hn2, hxn⟩ := mem_drop_index u k x hx
  obtain ⟨q, p, hq2, hp2, hqp⟩ := lessAt_true less _ _ _ h
  have hp : u[k]? = some p := by
    rw [List.getElem?_append_left hk] at hp2
    exact hp2
  have hq : v[l]? = some q := by
    rw [List.getElem?_append_right (Nat.le_add_right _ _), Nat.add_sub_cancel_left] at hq2
    exact hq2
  have hswu : StrictWeak less u := hsw.mono (fun a ha => List.mem_append_left _ ha)
  have hswv : StrictWeak less v := hsw.mono (fun a ha => List.mem_append_right _ ha)
  have e1 : less q y = false := ascending_index less v hswv hv n l y q (by omega) hyn hq
  have e2 : less x p = false := ascending_index less u hswu hu k n2 p x hn2 hp hxn
  have mx : x ∈ u ++ v := List.mem_append_left _ (List.getElem?_mem hxn)
  have my : y ∈ u ++ v := List.mem_append_right _ (List.getElem?_mem hyn)
  have mp : p ∈ u ++ v := List.mem_append_left _ (List.getElem?_mem hp)
  have mq : q ∈ u ++ v := List.mem_append_right _ (List.getElem?_mem hq)
  cases hyx : less y x with
  | true => rfl
  | false =>
    have := hsw.2 q mq x mx p mp (hsw.2 q mq y my x mx e1 hyx) e2
    rw [this] at hqp
    exact hqp


/-! ### `symMerge` merges -/

theorem symMergeStart_spec {α : Type} (less : α → α → Bool) (u v : List α)
    (hu0 : 0 < u.length) (hv0 : 0 < v.length) :
    symMergeStart less (u ++ v) u.length ≤ u.length ∧
    symMergeStart less (u ++ v) u.length ≤ (u.length + v.length) / 2 ∧
    (u.length + v.length) / 2 - symMergeStart less (u ++ v) u.length ≤ v.length ∧
    (0 < symMergeStart less (u ++ v) u.length →
      (u.length + v.length) / 2 - symMergeStart less (u ++ v) u.length < v.length →
      lessAt less (u ++ v)
        (u.length + ((u.length + v.length) / 2 - symMergeStart less (u ++ v) u.length))
        (symMergeStart less (u ++ v) u.length - 1) = false) ∧
    (symMergeStart less (u ++ v) u.length < u.length →
      symMergeStart less (u ++ v) u.length < (u.length + v.length) / 2 →
      lessAt less (u ++ v)
        (u.length + ((u.length + v.length) / 2 - symMergeStart less (u ++ v) u.length - 1))
        (symMergeStart less (u ++ v) u.length) = true) := by
  unfold symMergeStart
  simp only [List.length_append]
  by_cases hm : u.length > (u.length + v.length) / 2
  · simp only [if_pos hm]
    obtain ⟨h1, h2, h3, h4⟩ := searchLoop_post
      (fun c => !lessAt less (u ++ v) ((u.length + v.length) / 2 + u.length - 1 - c) c)
      ((u.length + v.length) / 2 - ((u.length + v.length) / 2 + u.length - (u.length + v.length)))
      ((u.length + v.length) / 2 + u.length - (u.length + v.length))
      ((u.length + v.length) / 2) (by omega) (le_refl _)
    generalize searchLoop
      (fun c => !lessAt less (u ++ v) ((u.length + v.length) / 2 + u.length - 1 - c) c)
      ((u.length + v.length) / 2 - ((u.length + v.length) / 2 + u.length - (u.length + v.length)))
      ((u.length + v.length) / 2 + u.length - (u.length + v.length))
      ((u.length + v.length) / 2) = s at h1 h2 h3 h4 ⊢
    refine ⟨by omega, h2, by omega, fun hs hlt => ?_, fun hs hlt => ?_⟩
    · have := h3 (by omega)
      simp only [Bool.not_eq_true', ] at this
      have e : (u.length + v.length) / 2 + u.length - 1 - (s - 1)
          = u.length + ((u.length + v.length) / 2 - s) := by omega
      rw [e] at this
      exact this
    · have := h4 hlt
      simp only [Bool.not_eq_false'] at this
      have e : (u.length + v.length) / 2 + u.length - 1 - s
          = u.length + ((u.length + v.length) / 2 - s - 1) := by omega
      rw [e] at this
      exact this
  · simp only [if_neg hm]
    obtain ⟨h1, h2, h3, h4⟩ := searchLoop_post
      (fun c => !lessAt less (u ++ v) ((u.length + v.length) / 2 + u.length - 1 - c) c)
      (u.length - 0) 0 u.length (by omega) (le_refl _)
    generalize searchLoop
      (fun c => !lessAt less (u ++ v) ((u.length + v.length) / 2 + u.length - 1 - c) c)
      (u.length - 0) 0 u.length = s at h1 h2 h3 h4 ⊢
    refine ⟨h2, by omega, by omega, fun hs hlt => ?_, fun hs hlt => ?_⟩
    · have := h3 hs
      simp only [Bool.not_eq_true'] at this
      have e : (u.length + v.length) / 2 + u.length - 1 - (s - 1)
          = u.length + ((u.length + v.length) / 2 - s) := by omega
      rw [e] at this
      exact this
    · have := h4 hs
      simp only [Bool.not_eq_false'] at this
      have e : (u.length + v.length) / 2 + u.length - 1 - s
          = u.length + ((u.length + v.length) / 2 - s - 1) := by omega
      rw [e] at this
      exact this

/-- The content after the rotation step, whether the rotation runs or not. -/
theorem rotate_cut {α : Type} (u v : List α) (s e : Nat) (hs : s ≤ u.length)
    (he : e ≤ v.length) :
    (if s < u.length ∧ u.length < u.length + e then rotate (u ++ v) s u.length (u.length + e)
      else u ++ v) = (u.take s ++ v.take e) ++ (u.drop s ++ v.drop e) := by
  have t1 : (u ++ v).take s = u.take s := List.take_append_of_le_length hs
  have t2 : ((u ++ v).take (u.length + e)).drop u.length = v.take e := by
    rw [List.take_append, List.drop_left]
  have t3 : ((u ++ v).take u.length).drop s = u.drop s := by
    rw [List.take_left]
  have t4 : (u ++ v).drop (u.length + e) = v.drop e := List.drop_append e
  split
  · unfold rotate
    rw [t1, t2, t3, t4]
    simp
  · rename_i hc
    by_cases h1 : s < u.length
    · have he0 : e = 0 := by omega
      subst he0
      simp only [List.take_zero, List.append_nil, List.drop_zero]
      rw [← List.append_assoc, List.take_append_drop]
    · have hsl : s = u.length := by omega
      subst hsl
      simp


theorem ascending_take {α : Type} (less : α → α → Bool) (l : List α) (n : Nat)
    (h : Ascending less l) : Ascending less (l.take n) :=
  List.Pairwise.sublist (List.take_sublist n l) h

theorem ascending_drop {α : Type} (less : α → α → Bool) (l : List α) (n : Nat)
    (h : Ascending less l) : Ascending less (l.drop n) :=
  List.Pairwise.sublist (List.drop_sublist n l) h

/-- On two ascending non-empty runs, under a strict weak order, `symMerge` is
the stable merge. -/
theorem symMerge_eq_stableMerge {α : Type} (less : α → α → Bool) (fuel : Nat)
    (u v : List α) (hfuel : (u ++ v).length ≤ fuel) (hu0 : u ≠ []) (hv0 : v ≠ [])
    (hsw : StrictWeak less (u ++ v)) (hu : Ascending less u) (hv : Ascending less v) :
    symMerge less fuel (u ++ v) u.length = stableMerge less u v := by
  induction fuel generalizing u v with
  | zero =>
    have : u.length = 0 := by
      rw [List.length_append] at hfuel
      omega
    exact absurd (List.length_eq_zero.mp this) hu0
  | succ fuel ih =>
    have hul : 0 < u.length := List.length_pos.mpr hu0
    have hvl : 0 < v.length := List.length_pos.mpr hv0
    rw [List.length_append] at hfuel
    simp only [symMerge]
    by_cases hm1 : u.length = 1
    · -- one element on the left
      rw [if_pos hm1]
      obtain ⟨h1, h2, h3, h4⟩ := searchLoop_post (fun h => lessAt less (u ++ v) h 0)
        ((u ++ v).length - u.length) u.length (u ++ v).length
        (by rw [List.length_append]; omega) (le_refl _)
      generalize searchLoop (fun h => lessAt less (u ++ v) h 0)
        ((u ++ v).length - u.length) u.length (u ++ v).length = i at h1 h2 h3 h4 ⊢
      rw [List.length_append] at h2 h4
      obtain ⟨x, rfl⟩ := List.length_eq_one.mp hm1
      simp only [List.singleton_append, List.drop_succ_cons, List.drop_zero, List.take_succ_cons,
        List.take_zero, List.length_singleton] at h1 h2 h3 h4 ⊢
      have hsplit : stableMerge less ([] ++ [x]) (v.take (i - 1) ++ v.drop (i - 1))
          = stableMerge less [] (v.take (i - 1)) ++ stableMerge less [x] (v.drop (i - 1)) := by
        refine stableMerge_append less [] [x] _ _ ?_ (fun a ha => by simp at ha)
        by_cases hi : 1 < i
        · have := cut_right less [x] v hsw hu hv 0 (i - 2) (by simp)
            (by
              have := h3 hi
              simp only [List.singleton_append, List.length_singleton]
              have e : 1 + (i - 2) = i - 1 := by omega
              rw [e]
              exact this)
          have e2 : i - 2 + 1 = i - 1 := by omega
          rw [e2] at this
          simpa using this
        · have e : i - 1 = 0 := by omega
          rw [e]
          intro y hy
          simp at hy
      have hright : stableMerge less [x] (v.drop (i - 1)) = [x] ++ v.drop (i - 1) := by
        refine stableMerge_eq_append less _ _ ?_
        by_cases hi : i < 1 + v.length
        · have := cut_left less [x] v hsw hu hv 0 (i - 1) (by simp)
            (by
              have := h4 hi
              simp only [List.singleton_append, List.length_singleton]
              have e : 1 + (i - 1) = i := by omega
              rw [e]
              exact this)
          simpa using this
        · have e : v.drop (i - 1) = [] := List.drop_of_length_le (by omega)
          rw [e]
          intro a _ b hb
          simp at hb
      rw [List.take_append_drop, List.nil_append, stableMerge_nil_left, hright] at hsplit
      rw [hsplit]
      simp
    · rw [if_neg hm1]
      by_cases hm2 : (u ++ v).length - u.length = 1
      · -- one element on the right
        rw [if_pos hm2]
        have hv1 : v.length = 1 := by
          rw [List.length_append] at hm2
          omega
        obtain ⟨h1, h2, h3, h4⟩ := searchLoop_post
          (fun h => !lessAt less (u ++ v) u.length h) u.length 0 u.length (Nat.zero_le _)
          (le_refl _)
        generalize searchLoop (fun h => !lessAt less (u ++ v) u.length h) u.length 0 u.length
          = i at h1 h2 h3 h4 ⊢
        obtain ⟨y, rfl⟩ := List.length_eq_one.mp hv1
        have t1 : (u ++ [y]).take i = u.take i := List.take_append_of_le_length h2
        have t2 : (u ++ [y]).drop u.length = [y] := List.drop_left _ _
        have t3 : ((u ++ [y]).take u.length).drop i = u.drop i := by rw [List.take_left]
        rw [t1, t2, t3]
        have hsplit : stableMerge less (u.take i ++ u.drop i) ([y] ++ [])
            = stableMerge less (u.take i) [y] ++ stableMerge less (u.drop i) [] := by
          refine stableMerge_append less _ _ [y] [] ?_ (fun a _ b hb => by simp at hb)
          by_cases hi : i < u.length
          · have := cut_right less u [y] hsw hu hv i 0 hi
              (by
                have := h4 hi
                simp only [Bool.not_eq_false'] at this
                exact this)
            simpa using this
          · have e : u.drop i = [] := List.drop_of_length_le (by omega)
            rw [e]
            intro a _ b hb
            simp at hb
        have hleft : stableMerge less (u.take i) [y] = u.take i ++ [y] := by
          refine stableMerge_eq_append less _ _ ?_
          by_cases hi : 0 < i
          · have := cut_left less u [y] hsw hu hv (i - 1) 0 (by omega)
              (by
                have := h3 hi
                simp only [Bool.not_eq_true'] at this
                exact this)
            have e : i - 1 + 1 = i := by omega
            rw [e] at this
            simpa using this
          · have e : i = 0 := by omega
            rw [e]
            intro a ha
            simp at ha
        rw [List.take_append_drop, List.append_nil, stableMerge_nil_right, hleft] at hsplit
        rw [hsplit]
        simp
      · -- the general step
        rw [if_neg hm2]
        rw [List.length_append] at hm2
        obtain ⟨s1, s2, s3, s4, s5⟩ := symMergeStart_spec less u v hul hvl
        simp only [List.length_append]
        generalize symMergeStart less (u ++ v) u.length = s at s1 s2 s3 s4 s5 ⊢
        have hend : (u.length + v.length) / 2 + u.length - s
            = u.length + ((u.length + v.length) / 2 - s) := by omega
        rw [hend, rotate_cut u v s _ s1 s3]
        have hlen1 : (u.take s ++ v.take ((u.length + v.length) / 2 - s)).length
            = (u.length + v.length) / 2 := by
          rw [List.length_append, List.length_take, List.length_take]
          omega
        rw [List.take_left' hlen1, List.drop_left' hlen1]
        have hsplit : stableMerge less (u.take s ++ u.drop s)
            (v.take ((u.length + v.length) / 2 - s) ++ v.drop ((u.length + v.length) / 2 - s))
            = stableMerge less (u.take s) (v.take ((u.length + v.length) / 2 - s)) ++
              stableMerge less (u.drop s) (v.drop ((u.length + v.length) / 2 - s)) := by
          refine stableMerge_append less _ _ _ _ ?_ ?_
          · by_cases hc : s < u.length ∧ s < (u.length + v.length) / 2
            · have := cut_right less u v hsw hu hv s ((u.length + v.length) / 2 - s - 1) hc.1
                (s5 hc.1 hc.2)
              have e : (u.length + v.length) / 2 - s - 1 + 1 = (u.length + v.length) / 2 - s := by
                omega
              rw [e] at this
              exact this
            · intro y hy x hx
              have hcases : s = u.length ∨ (u.length + v.length) / 2 - s = 0 := by omega
              rcases hcases with h | h
              · rw [h, List.drop_length] at hx
                simp at hx
              · rw [h] at hy
                simp at hy
          · by_cases hc : 0 < s ∧ (u.length + v.length) / 2 - s < v.length
            · have := cut_left less u v hsw hu hv (s - 1) ((u.length + v.length) / 2 - s)
                (by omega) (s4 hc.1 hc.2)
              have e : s - 1 + 1 = s := by omega
              rw [e] at this
              exact this
            · intro x hx y hy
              have hcases : s = 0 ∨ v.length ≤ (u.length + v.length) / 2 - s := by omega
              rcases hcases with h | h
              · rw [h] at hx
                simp at hx
              · rw [List.drop_of_length_le h] at hy
                simp at hy
        rw [List.take_append_drop, List.take_append_drop] at hsplit
        rw [hsplit]
        have hsub1 : ∀ a ∈ u.take s ++ v.take ((u.length + v.length) / 2 - s), a ∈ u ++ v := by
          intro a ha
          rcases List.mem_append.mp ha with h | h
          · exact List.mem_append_left _ (List.mem_of_mem_take h)
          · exact List.mem_append_right _ (List.mem_of_mem_take h)
        have hsub2 : ∀ a ∈ u.drop s ++ v.drop ((u.length + v.length) / 2 - s), a ∈ u ++ v := by
          intro a ha
          rcases List.mem_append.mp ha with h | h
          · exact List.mem_append_left _ (List.mem_of_mem_drop h)
          · exact List.mem_append_right _ (List.mem_of_mem_drop h)
        congr 1
        · by_cases hc : 0 < s ∧ s < (u.length + v.length) / 2
          · rw [if_pos hc]
            have hl : (u.take s).length = s := by
              rw [List.length_take]
              omega
            have := ih (u.take s) (v.take ((u.length + v.length) / 2 - s))
              (by rw [hlen1]; omega)
              (by
                intro h
                rw [h, List.length_nil] at hl
                omega)
              (by
                intro h
                have h2 := congrArg List.length h
                rw [List.length_take, List.length_nil] at h2
                omega)
              (hsw.mono hsub1) (ascending_take less u s hu) (ascending_take less v _ hv)
            rw [hl] at this
            exact this
          · rw [if_neg hc]
            have hcases : s = 0 ∨ (u.length + v.length) / 2 - s = 0 := by omega
            rcases hcases with h | h
            · rw [h]
              simp [stableMerge_nil_left]
            · rw [h]
              simp [stableMerge_nil_right]
        · by_cases hc : (u.length + v.length) / 2 < u.length + ((u.length + v.length) / 2 - s) ∧
              u.length + ((u.length + v.length) / 2 - s) < u.length + v.length
          · rw [if_pos hc]
            have hl : (u.drop s).length
                = u.length + ((u.length + v.length) / 2 - s) - (u.length + v.length) / 2 := by
              rw [List.length_drop]
              omega
            have := ih (u.drop s) (v.drop ((u.length + v.length) / 2 - s))
              (by rw [List.length_append, List.length_drop, List.length_drop]; omega)
              (by
                intro h
                have h2 := congrArg List.length h
                rw [List.length_drop, List.length_nil] at h2
                omega)
              (by
                intro h
                have h2 := congrArg List.length h
                rw [List.length_drop, List.length_nil] at h2
                omega)
              (hsw.mono hsub2) (ascending_drop less u s hu) (ascending_drop less v _ hv)
            rw [hl] at this
            exact this
          · rw [if_neg hc]
            have hcases : u.length ≤ s ∨ v.length ≤ (u.length + v.length) / 2 - s := by omega
            rcases hcases with h | h
            · rw [List.drop_of_length_le h]
              simp [stableMerge_nil_left]
            · rw [List.drop_of_length_le h]
              simp [stableMerge_nil_right]


/-! ### Sorted input is left alone -/

theorem insertionSort_of_ascending {α : Type} (less : α → α → Bool) (l : List α)
    (h : Ascending less l) : insertionSort less l = l := by
  have := insertionLoop_of_chain less l [] (by simpa using List.Pairwise.chain' h)
  simpa [insertionSort] using this

theorem insertionSortBlocks_of_ascending {α : Type} (less : α → α → Bool)
    (blockSize fuel : Nat) (data : List α) (h : Ascending less data) :
    insertionSortBlocks less blockSize fuel data = data := by
  induction fuel generalizing data with
  | zero => exact insertionSort_of_ascending less data h
  | succ fuel ih =>
    simp only [insertionSortBlocks]
    split
    · rw [insertionSort_of_ascending less _ (ascending_take less data _ h),
        ih _ (ascending_drop less data _ h), List.take_append_drop]
    · exact insertionSort_of_ascending less data h

theorem symMerge_of_ascending {α : Type} (less : α → α → Bool) (fuel : Nat) (data : List α)
    (m : Nat) (hfuel : data.length ≤ fuel) (hm0 : 0 < m) (hm : m < data.length)
    (hsw : StrictWeak less data) (h : Ascending less data) :
    symMerge less fuel data m = data := by
  have hsplit : data.take m ++ data.drop m = data := List.take_append_drop m data
  have hl : (data.take m).length = m := by
    rw [List.length_take]
    omega
  have hcross : ∀ x ∈ data.take m, ∀ y ∈ data.drop m, less y x = false := by
    have h2 : Ascending less (data.take m ++ data.drop m) := by rw [hsplit]; exact h
    exact (List.pairwise_append.mp h2).2.2
  have := symMerge_eq_stableMerge less fuel (data.take m) (data.drop m)
    (by rw [hsplit]; exact hfuel)
    (by
      intro h0
      rw [h0, List.length_nil] at hl
      omega)
    (by
      intro h0
      have h2 := congrArg List.length h0
      rw [List.length_drop, List.length_nil] at h2
      omega)
    (by rw [hsplit]; exact hsw) (ascending_take less data m h) (ascending_drop less data m h)
  rw [hsplit, hl] at this
  rw [this, stableMerge_eq_append less _ _ hcross, hsplit]

theorem mergeBlocks_of_ascending {α : Type} (less : α → α → Bool) (blockSize fuel : Nat)
    (data : List α) (hbs : 0 < blockSize) (hsw : StrictWeak less data)
    (h : Ascending less data) : mergeBlocks less blockSize fuel data = data := by
  induction fuel generalizing data with
  | zero => rfl
  | succ fuel ih =>
    simp only [mergeBlocks]
    by_cases h1 : 2 * blockSize ≤ data.length
    · rw [if_pos h1]
      have hl : (data.take (2 * blockSize)).length = 2 * blockSize := by
        rw [List.length_take]
        omega
      rw [symMerge_of_ascending less _ _ blockSize (by rw [hl]) hbs (by rw [hl]; omega)
          (hsw.mono (fun a ha => List.mem_of_mem_take ha)) (ascending_take less data _ h),
        ih _ (hsw.mono (fun a ha => List.mem_of_mem_drop ha)) (ascending_drop less data _ h),
        List.take_append_drop]
    · rw [if_neg h1]
      by_cases h2 : blockSize < data.length
      · rw [if_pos h2]
        exact symMerge_of_ascending less _ _ blockSize (le_refl _) hbs h2 hsw h
      · rw [if_neg h2]

theorem mergePasses_of_ascending {α : Type} (less : α → α → Bool) (fuel blockSize : Nat)
    (data : List α) (hbs : 0 < blockSize) (hsw : StrictWeak less data)
    (h : Ascending less data) : mergePasses less fuel blockSize data = data := by
  induction fuel generalizing blockSize with
  | zero => rfl
  | succ fuel ih =>
    simp only [mergePasses]
    split
    · rw [mergeBlocks_of_ascending less blockSize _ data hbs hsw h]
      exact ih (2 * blockSize) (by omega)
    · rfl

/-- An ascending list is a fixed point of `SliceStable`. -/
theorem SliceStable_of_ascending {α : Type} (less : α → α → Bool) (t : List α)
    (hsw : StrictWeak less t) (h : Ascending less t) : SliceStable less t = t := by
  unfold SliceStable
  rw [insertionSortBlocks_of_ascending less 20 _ t h]
  exact mergePasses_of_ascending less _ 20 t (by decide) hsw h


/-! ### The result is ascending -/

theorem blocksAscending_of_ascending {α : Type} (less : α → α → Bool) (blockSize : Nat)
    (data : List α) (h : Ascending less data) : BlocksAscending less blockSize data :=
  fun _ => ascending_take less _ _ (ascending_drop less data _ h)

theorem ascending_of_blocksAscending {α : Type} (less : α → α → Bool) (blockSize : Nat)
    (data : List α) (hlen : data.length ≤ blockSize) (h : BlocksAscending less blockSize data) :
    Ascending less data := by
  have := h 0
  rwa [Nat.zero_mul, List.drop_zero, List.take_of_length_le hlen] at this

theorem blocksAscending_append {α : Type} (less : α → α → Bool) (blockSize : Nat)
    (a b : List α) (hlen : a.length = blockSize) (ha : Ascending less a)
    (hb : BlocksAscending less blockSize b) : BlocksAscending less blockSize (a ++ b) := by
  intro k
  cases k with
  | zero =>
    rw [Nat.zero_mul, List.drop_zero, List.take_left' hlen]
    exact ha
  | succ k =>
    have e : (k + 1) * blockSize = a.length + k * blockSize := by
      rw [hlen, Nat.succ_mul, Nat.add_comm]
    rw [e, List.drop_append]
    exact hb k

theorem blocksAscending_drop {α : Type} (less : α → α → Bool) (blockSize : Nat)
    (data : List α) (h : BlocksAscending less blockSize data) :
    BlocksAscending less blockSize (data.drop (2 * blockSize)) := by
  intro k
  have := h (k + 2)
  rw [List.drop_drop]
  have e : (k + 2) * blockSize = 2 * blockSize + k * blockSize := by
    rw [Nat.add_mul, Nat.add_comm]
  rwa [e] at this

theorem insertionSort_ascending {α : Type} (less : α → α → Bool) (l : List α)
    (hsw : StrictWeak less l) : Ascending less (insertionSort less l) :=
  insertionSort_sorted less (fun x => x ∈ l) (fun x y hx hy h => hsw.1 x hx y hy h)
    (fun x y z hx hy hz h1 h2 => hsw.2 x hx y hy z hz h1 h2) l (fun _ h => h)

theorem insertionSortBlocks_blocks {α : Type} (less : α → α → Bool) (blockSize fuel : Nat)
    (data : List α) (hsw : StrictWeak less data) :
    BlocksAscending less blockSize (insertionSortBlocks less blockSize fuel data) := by
  induction fuel generalizing data with
  | zero => exact blocksAscending_of_ascending less _ _ (insertionSort_ascending less data hsw)
  | succ fuel ih =>
    simp only [insertionSortBlocks]
    by_cases h : blockSize ≤ data.length
    · rw [if_pos h]
      have hswa : StrictWeak less (data.take blockSize) :=
        hsw.mono (fun a ha => List.mem_of_mem_take ha)
      refine blocksAscending_append less blockSize _ _ ?_ (insertionSort_ascending less _ hswa)
        (ih _ (hsw.mono (fun a ha => List.mem_of_mem_drop ha)))
      rw [(insertionSort_perm less _).length_eq, List.length_take]
      omega
    · rw [if_neg h]
      exact blocksAscending_of_ascending less _ _ (insertionSort_ascending less data hsw)

theorem mergeBlocks_blocks {α : Type} (less : α → α → Bool) (blockSize fuel : Nat)
    (data : List α) (hbs : 0 < blockSize) (hsw : StrictWeak less data)
    (hfuel : data.length ≤ fuel) (h : BlocksAscending less blockSize data) :
    BlocksAscending less (2 * blockSize) (mergeBlocks less blockSize fuel data) := by
  induction fuel generalizing data with
  | zero =>
    have : data = [] := List.length_eq_zero.mp (by omega)
    subst this
    exact blocksAscending_of_ascending less _ _ List.Pairwise.nil
  | succ fuel ih =>
    simp only [mergeBlocks]
    have hu : Ascending less (data.take blockSize) := by
      have := h 0
      rwa [Nat.zero_mul, List.drop_zero] at this
    have hv : Ascending less ((data.drop blockSize).take blockSize) := by
      have := h 1
      rwa [Nat.one_mul] at this
    by_cases h1 : 2 * blockSize ≤ data.length
    · rw [if_pos h1]
      have e2 : data.take (2 * blockSize)
          = data.take blockSize ++ (data.drop blockSize).take blockSize := by
        rw [Nat.two_mul, List.take_add]
      have hlu : (data.take blockSize).length = blockSize := by
        rw [List.length_take]
        omega
      have hlv : ((data.drop blockSize).take blockSize).length = blockSize := by
        rw [List.length_take, List.length_drop]
        omega
      have hswuv : StrictWeak less
          (data.take blockSize ++ (data.drop blockSize).take blockSize) := by
        rw [← e2]
        exact hsw.mono (fun a ha => List.mem_of_mem_take ha)
      have hm := symMerge_eq_stableMerge less (2 * blockSize) (data.take blockSize)
        ((data.drop blockSize).take blockSize)
        (by rw [List.length_append, hlu, hlv]; omega)
        (by intro h0; rw [h0, List.length_nil] at hlu; omega)
        (by intro h0; rw [h0, List.length_nil] at hlv; omega)
        hswuv hu hv
      rw [hlu] at hm
      rw [e2, hm]
      refine blocksAscending_append less (2 * blockSize) _ _ ?_
        (stableMerge_ascending less _ _ hswuv hu hv)
        (ih _ (hsw.mono (fun a ha => List.mem_of_mem_drop ha))
          (by rw [List.length_drop]; omega) (blocksAscending_drop less blockSize data h))
      rw [(stableMerge_perm less _ _).length_eq, List.length_append, hlu, hlv]
      omega
    · rw [if_neg h1]
      by_cases h2 : blockSize < data.length
      · rw [if_pos h2]
        have hlu : (data.take blockSize).length = blockSize := by
          rw [List.length_take]
          omega
        have hv2 : Ascending less (data.drop blockSize) := by
          rwa [List.take_of_length_le (by rw [List.length_drop]; omega)] at hv
        have hsplit : data.take blockSize ++ data.drop blockSize = data :=
          List.take_append_drop _ _
        have hm := symMerge_eq_stableMerge less data.length (data.take blockSize)
          (data.drop blockSize) (by rw [hsplit])
          (by intro h0; rw [h0, List.length_nil] at hlu; omega)
          (by
            intro h0
            have h3 := congrArg List.length h0
            rw [List.length_drop, List.length_nil] at h3
            omega)
          (by rw [hsplit]; exact hsw) hu hv2
        rw [hsplit, hlu] at hm
        rw [hm]
        exact blocksAscending_of_ascending less _ _
          (stableMerge_ascending less _ _ (by rw [hsplit]; exact hsw) hu hv2)
      · rw [if_neg h2]
        exact blocksAscending_of_ascending less _ _
          (ascending_of_blocksAscending less blockSize data (by omega) h)

theorem mergePasses_ascending {α : Type} (less : α → α → Bool) (fuel blockSize : Nat)
    (data : List α) (hbs : 0 < blockSize) (hsw : StrictWeak less data)
    (hfuel : data.length ≤ blockSize * 2 ^ fuel) (h : BlocksAscending less blockSize data) :
    Ascending less (mergePasses less fuel blockSize data) := by
  induction fuel generalizing blockSize data with
  | zero =>
    exact ascending_of_blocksAscending less blockSize data (by simpa using hfuel) h
  | succ fuel ih =>
    simp only [mergePasses]
    by_cases h1 : blockSize < data.length
    · rw [if_pos h1]
      have hp := mergeBlocks_perm less blockSize data.length data
      refine ih (2 * blockSize) _ (by omega) (hsw.mono (fun a ha => hp.mem_iff.mp ha)) ?_
        (mergeBlocks_blocks less blockSize _ data hbs hsw (le_refl _) h)
      rw [hp.length_eq]
      have e : blockSize * 2 ^ (fuel + 1) = 2 * blockSize * 2 ^ fuel := by
        rw [Nat.pow_succ]
        ring
      rwa [e] at hfuel
    · rw [if_neg h1]
      exact ascending_of_blocksAscending less blockSize data (by omega) h

/-- Under a strict weak order the result of `SliceStable` is ascending. -/
theorem SliceStable_ascending {α : Type} (less : α → α → Bool) (t : List α)
    (hsw : StrictWeak less t) : Ascending less (SliceStable less t) := by
  unfold SliceStable
  have hp := insertionSortBlocks_perm less 20 t.length t
  refine mergePasses_ascending less _ 20 _ (by decide)
    (hsw.mono (fun a ha => hp.mem_iff.mp ha)) ?_ (insertionSortBlocks_blocks less 20 _ t hsw)
  rw [hp.length_eq]
  have := Nat.lt_two_pow t.length
  omega

/-- Under a strict weak order a second `SliceStable` changes nothing. -/
theorem SliceStable_idem {α : Type} (less : α → α → Bool) (t : List α)
    (hsw : StrictWeak less t) :
    SliceStable less (SliceStable less t) = SliceStable less t :=
  SliceStable_of_ascending less _
    (hsw.mono (fun _ ha => (SliceStable_perm less t).mem_iff.mp ha))
    (SliceStable_ascending less t hsw)


/-! ### The bounds on the loops are never reached -/

theorem searchLoop_fuel (P : Nat → Bool) (f1 f2 i j : Nat) (h1 : j - i ≤ f1) (h2 : j - i ≤ f2) :
    searchLoop P f1 i j = searchLoop P f2 i j := by
  induction f1 generalizing f2 i j with
  | zero =>
    cases f2 with
    | zero => rfl
    | succ b =>
      simp only [searchLoop]
      rw [if_neg (by omega)]
  | succ a ih =>
    cases f2 with
    | zero =>
      simp only [searchLoop]
      rw [if_neg (by omega)]
    | succ b =>
      simp only [searchLoop]
      by_cases hij : i < j
      · rw [if_pos hij, if_pos hij]
        split
        · exact ih b _ _ (by omega) (by omega)
        · exact ih b _ _ (by omega) (by omega)
      · rw [if_neg hij, if_neg hij]

theorem symMerge_nil {α : Type} (less : α → α → Bool) (fuel m : Nat) :
    symMerge less fuel [] m = [] := by
  cases fuel with
  | zero => rfl
  | succ a => simp [symMerge, rotate]

/-- A bound of at least the length of the segment gives the same result as
any other such bound: the recursion of `symMerge` never runs out. -/
theorem symMerge_fuel {α : Type} (less : α → α → Bool) (f1 f2 : Nat) (data : List α) (m : Nat)
    (h1 : data.length ≤ f1) (h2 : data.length ≤ f2) :
    symMerge less f1 data m = symMerge less f2 data m := by
  induction f1 generalizing f2 data m with
  | zero =>
    have : data = [] := List.length_eq_zero.mp (by omega)
    subst this
    rw [symMerge_nil, symMerge_nil]
  | succ a ih =>
    cases f2 with
    | zero =>
      have : data = [] := List.length_eq_zero.mp (by omega)
      subst this
      rw [symMerge_nil, symMerge_nil]
    | succ b =>
      simp only [symMerge]
      split
      · rfl
      · split
        · rfl
        · have hlen : ∀ (c : Prop) [Decidable c] (x y z : Nat), (c → x ≤ y ∧ y ≤ z) →
              (if c then rotate data x y z else data).length = data.length :=
            fun c _ x y z hc => (ite_rotate_perm data c x y z hc).length_eq
          have hl := hlen (symMergeStart less data m < m ∧
              m < data.length / 2 + m - symMergeStart less data m)
            (symMergeStart less data m) m (data.length / 2 + m - symMergeStart less data m)
            (fun h => ⟨le_of_lt h.1, le_of_lt h.2⟩)
          congr 1
          · split
            · refine ih b _ _ ?_ ?_
              · rw [List.length_take, hl]
                omega
              · rw [List.length_take, hl]
                omega
            · rfl
          · split
            · rename_i hc
              refine ih b _ _ ?_ ?_
              · rw [List.length_drop, hl]
                omega
              · rw [List.length_drop, hl]
                omega
            · rfl

theorem insertionSortBlocks_fuel {α : Type} (less : α → α → Bool) (blockSize f1 f2 : Nat)
    (data : List α) (hbs : 0 < blockSize) (h1 : data.length ≤ f1) (h2 : data.length ≤ f2) :
    insertionSortBlocks less blockSize f1 data = insertionSortBlocks less blockSize f2 data := by
  induction f1 generalizing f2 data with
  | zero =>
    cases f2 with
    | zero => rfl
    | succ b =>
      simp only [insertionSortBlocks]
      rw [if_neg (by omega)]
  | succ a ih =>
    cases f2 with
    | zero =>
      simp only [insertionSortBlocks]
      rw [if_neg (by omega)]
    | succ b =>
      simp only [insertionSortBlocks]
      split
      · rw [ih b _ (by rw [List.length_drop]; omega) (by rw [List.length_drop]; omega)]
      · rfl

theorem mergeBlocks_fuel {α : Type} (less : α → α → Bool) (blockSize f1 f2 : Nat)
    (data : List α) (hbs : 0 < blockSize) (h1 : data.length ≤ f1) (h2 : data.length ≤ f2) :
    mergeBlocks less blockSize f1 data = mergeBlocks less blockSize f2 data := by
  induction f1 generalizing f2 data with
  | zero =>
    cases f2 with
    | zero => rfl
    | succ b =>
      simp only [mergeBlocks]
      rw [if_neg (by omega), if_neg (by omega)]
  | succ a ih =>
    cases f2 with
    | zero =>
      simp only [mergeBlocks]
      rw [if_neg (by omega), if_neg (by omega)]
    | succ b =>
      simp only [mergeBlocks]
      split
      · rw [ih b _ (by rw [List.length_drop]; omega) (by rw [List.length_drop]; omega)]
      · rfl

theorem mergePasses_fuel {α : Type} (less : α → α → Bool) (f1 f2 blockSize : Nat)
    (data : List α) (h1 : data.length ≤ blockSize * 2 ^ f1)
    (h2 : data.length ≤ blockSize * 2 ^ f2) :
    mergePasses less f1 blockSize data = mergePasses less f2 blockSize data := by
  induction f1 generalizing f2 blockSize data with
  | zero =>
    cases f2 with
    | zero => rfl
    | succ b =>
      simp only [mergePasses]
      rw [if_neg (by simpa using h1)]
  | succ a ih =>
    cases f2 with
    | zero =>
      simp only [mergePasses]
      rw [if_neg (by simpa using h2)]
    | succ b =>
      simp only [mergePasses]
      split
      · have hp := (mergeBlocks_perm less blockSize data.length data).length_eq
        refine ih b (2 * blockSize) _ ?_ ?_
        · rw [hp]
          have e : blockSize * 2 ^ (a + 1) = 2 * blockSize * 2 ^ a := by
            rw [Nat.pow_succ]
            ring
          rwa [e] at h1
        · rw [hp]
          have e : blockSize * 2 ^ (b + 1) = 2 * blockSize * 2 ^ b := by
            rw [Nat.pow_succ]
            ring
          rwa [e] at h2
      · rfl


/-- C18 as stated fails: on the 21 records of `exampleNaN` (18 of price 2,
one whose price is NaN, two of price 1) a second `sortByCriteria` under
`"price"` changes the list again.  The first call brings the last record to
the front, the second brings the other record of price 1 behind it. -/
theorem sortByCriteria_idem_counterexample :
    (sortByCriteria exampleNaN "price").map Train.TrainID
      = [21, 1, 2, 3, 4, 5, 6, 7, 8, 9, 10, 11, 12, 13, 14, 15, 16, 17, 18, 19, 20] ∧
    (sortByCriteria (sortByCriteria exampleNaN "price") "price").map Train.TrainID
      = [21, 20, 1, 2, 3, 4, 5, 6, 7, 8, 9, 10, 11, 12, 13, 14, 15, 16, 17, 18, 19] ∧
    sortByCriteria (sortByCriteria exampleNaN "price") "price"
      ≠ sortByCriteria exampleNaN "price" := by
  decide

theorem strictWeak_price (t : Trains) (h : ∀ tr ∈ t, tr.Price.isNaN = false) :
    StrictWeak (fun a b : Train => Float32.lt a.Price b.Price) t :=
  ⟨fun _ _ _ _ hxy => Float32.lt_asymm _ _ hxy,
   fun _ _ y hy _ _ h1 h2 => Float32.lt_negTrans _ _ _ (h y hy) h1 h2⟩

theorem strictWeak_arrivalTime (t : Trains) :
    StrictWeak (fun a b : Train => Time.Before a.ArrivalTime b.ArrivalTime) t :=
  ⟨fun _ _ _ _ hxy => Time.Before_asymm _ _ hxy,
   fun _ _ _ _ _ _ h1 h2 => Time.Before_negTrans _ _ _ h1 h2⟩

theorem strictWeak_departureTime (t : Trains) :
    StrictWeak (fun a b : Train => Time.Before a.DepartureTime b.DepartureTime) t :=
  ⟨fun _ _ _ _ hxy => Time.Before_asymm _ _ hxy,
   fun _ _ _ _ _ _ h1 h2 => Time.Before_negTrans _ _ _ h1 h2⟩

/-- C18, amended: for every list and every criteria string `sortByCriteria`
leaves a permutation of its input, of the same length; for a criteria string
other than `"price"`, `"arrival-time"` and `"departure-time"` it leaves the
list as it is; and applying it twice with one criteria gives what applying
it once gives, unless the criteria is `"price"` and the list has both more
than 20 records and a NaN price. -/
theorem sortByCriteria_perm_idem (t : Trains) (criteria : String) :
    (sortByCriteria t criteria).Perm t ∧
    (sortByCriteria t criteria).length = t.length ∧
    (¬ validCriteria criteria → sortByCriteria t criteria = t) ∧
    ((criteria = "price" → t.length ≤ 20 ∨ ∀ tr ∈ t, tr.Price.isNaN = false) →
      sortByCriteria (sortByCriteria t criteria) criteria = sortByCriteria t criteria) := by
  refine ⟨sortByCriteria_perm t criteria, sortByCriteria_length t criteria, ?_, ?_⟩
  · intro hc
    have h := (not_validCriteria_iff criteria).mpr hc
    simp only [sortByCriteria, if_neg h.1, if_neg h.2.1, if_neg h.2.2]
  · intro hdom
    unfold sortByCriteria
    by_cases h1 : criteria = "price"
    · simp only [if_pos h1]
      rcases hdom h1 with hlen | hnan
      · exact SliceStable_idem_short _ (fun x y h => Float32.lt_asymm _ _ h) t hlen
      · exact SliceStable_idem _ t (strictWeak_price t hnan)
    · by_cases h2 : criteria = "arrival-time"
      · simp only [if_neg h1, if_pos h2]
        exact SliceStable_idem _ t (strictWeak_arrivalTime t)
      · by_cases h3 : criteria = "departure-time"
        · simp only [if_neg h1, if_neg h2, if_pos h3]
          exact SliceStable_idem _ t (strictWeak_departureTime t)
        · simp only [if_neg h1, if_neg h2, if_neg h3]

/-- C18, amended, on three lists: the example file (sorted by price it is
`[D, B, C, A]`, and the file order stays under `"duration"`), the 21 records
of `exampleLong`, none with a NaN price, under `"price"`, and the 21 records
of `exampleNaN` under `"arrival-time"`. -/
theorem sortByCriteria_perm_idem_witness :
    sortByCriteria exampleABCD "price" = [trainD, trainB, trainC, trainA] ∧
    sortByCriteria (sortByCriteria exampleABCD "price") "price"
      = sortByCriteria exampleABCD "price" ∧
    (¬ validCriteria "duration" → sortByCriteria exampleABCD "duration" = exampleABCD) ∧
    exampleLong.length = 21 ∧
    (sortByCriteria exampleLong "price").map Train.TrainID
      = [20, 21, 1, 2, 3, 4, 5, 6, 7, 8, 9, 10, 11, 12, 13, 14, 15, 16, 17, 18, 19] ∧
    sortByCriteria (sortByCriteria exampleLong "price") "price"
      = sortByCriteria exampleLong "price" ∧
    (sortByCriteria exampleNaN "price").Perm exampleNaN ∧
    sortByCriteria (sortByCriteria exampleNaN "arrival-time") "arrival-time"
      = sortByCriteria exampleNaN "arrival-time" :=
  ⟨by decide,
   (sortByCriteria_perm_idem exampleABCD "price").2.2.2 (fun _ => Or.inl (by decide)),
   (sortByCriteria_perm_idem exampleABCD "duration").2.2.1,
   by decide, by decide,
   (sortByCriteria_perm_idem exampleLong "price").2.2.2 (fun _ => Or.inr (by decide)),
   (sortByCriteria_perm_idem exampleNaN "price").1,
   (sortByCriteria_perm_idem exampleNaN "arrival-time").2.2.2
     (fun h => absurd h (by decide))⟩

end IntelliasTrains
